import Mathlib

/-!
Verification development for the worktree-setup repository.

The development shallowly embeds the `copy` package (file counting,
directory enumeration, file/directory copying) and the `operations`
package (path resolution, operation planning, symlink creation, operation
execution) of the repository.

Modelling conventions:
* A filesystem is a finite association list from absolute paths
  (component lists) to nodes.  A node is a regular file with string
  content, a symlink with its recorded link-target text, or a directory.
* Symlinks are never dereferenced by the model (the code walks with
  `follow_links(false)` and never reads through a link during the
  operations under study); a symlink's recorded target is opaque text.
  `exists` checks are modelled as node presence.  Source paths fed to the
  single-file copy routines are regular files in every theorem below,
  matching the scenarios the specification quantifies over.
* The parallel rayon/jwalk batches are sequentialized: the copied file
  set and the final filesystem state are order-independent because every
  entry writes to a distinct target path, and the model's theorems only
  concern the final state and result value.
* Progress callbacks are pure reporting and are dropped from the model;
  they never influence results or the filesystem.
* I/O errors are modelled with `Except String`; the `jwalk` iterator's
  per-entry `Result` values are modelled as an explicit stream of
  `Except` entries where the distinction matters (count vs enumerate).
-/

/-- A filesystem node: regular file, symlink (with its recorded target
text, kept verbatim), or directory. -/
inductive Node where
  | file (content : String)
  | symlink (linkTarget : String)
  | dir
deriving DecidableEq, Repr

/-- A filesystem: finite association list from paths (component lists,
rooted at an implicit root) to nodes.  Well-formedness (no duplicate
keys, parents are directories) is assumed via explicit hypotheses where
theorems need it. -/
abbrev FS := List (List String × Node)

/-- Look a path up in the filesystem (first binding wins). -/
def lookupFS : FS → List String → Option Node
  | [], _ => none
  | (q, n) :: rest, p => if q = p then some n else lookupFS rest p

/-- Keys of a filesystem. -/
def keysFS (fs : FS) : List (List String) := fs.map Prod.fst

/-- True on regular-file nodes. -/
def isFileNode : Node → Bool
  | .file _ => true
  | _ => false

/-- True on symlink nodes. -/
def isSymlinkNode : Node → Bool
  | .symlink _ => true
  | _ => false

/-- Model of Rust `Path::exists` over the flat filesystem: a node is
present at the path.  (Symlink dereference is outside the model.) -/
def path_exists (fs : FS) (p : List String) : Bool := (lookupFS fs p).isSome

/-- Model of `Path::is_file`. -/
def is_file (fs : FS) (p : List String) : Bool :=
  match lookupFS fs p with
  | some (.file _) => true
  | _ => false

/-- Model of `Path::is_symlink`. -/
def is_symlink (fs : FS) (p : List String) : Bool :=
  match lookupFS fs p with
  | some (.symlink _) => true
  | _ => false

/-- Model of `Path::is_dir`. -/
def is_dir (fs : FS) (p : List String) : Bool :=
  match lookupFS fs p with
  | some .dir => true
  | _ => false

/-- Component-list analogue of `Path::starts_with`: `p` is a (weak)
ancestor-or-self of `q`. -/
def startsWithComps : List String → List String → Bool
  | [], _ => true
  | _ :: _, [] => false
  | a :: as, b :: bs => if a = b then startsWithComps as bs else false

/-- `q` lies strictly below `p`. -/
def strictUnder (p q : List String) : Bool :=
  if p = q then false else startsWithComps p q

/-- Remove the binding for a single path. -/
def removeKey : FS → List String → FS
  | [], _ => []
  | (q, n) :: rest, p =>
      if q = p then removeKey rest p else (q, n) :: removeKey rest p

/-- Remove a path and everything below it (model of `remove_dir_all`). -/
def removeTree : FS → List String → FS
  | [], _ => []
  | (q, n) :: rest, p =>
      if startsWithComps p q then removeTree rest p else (q, n) :: removeTree rest p

/-- Overwrite (or create) the binding at a path. -/
def setNode (fs : FS) (p : List String) (n : Node) : FS :=
  (p, n) :: removeKey fs p

/-- Nonempty prefixes of a path, shortest first: the chain of
directories `create_dir_all` walks. -/
def pathPrefixesOf : List String → List (List String)
  | [] => []
  | a :: rest => [a] :: (pathPrefixesOf rest).map (fun q => a :: q)

/-- Create each directory of a prefix chain in turn, failing when a
non-directory node occupies one of them (the `ErrorKind` of a failed
`create_dir_all`). -/
def mkdirList (fs : FS) : List (List String) → Except String FS
  | [] => .ok fs
  | q :: rest =>
      match lookupFS fs q with
      | some .dir => mkdirList fs rest
      | some _ => .error "create_dir_all: a non-directory is in the way"
      | none => mkdirList ((q, .dir) :: fs) rest

/-- Model of `std::fs::create_dir_all`. -/
def mkdirAll (fs : FS) (p : List String) : Except String FS :=
  mkdirList fs (pathPrefixesOf p)

/-! ## The copy package (transfer engine), `packages/copy/src` -/

/-- Result of a transfer-engine operation (`CopyResult` in
`packages/copy/src/copy.rs`). -/
inductive CopyResult where
  | created (filesCopied : Nat)
  | alreadyExists
  | sourceNotFound
deriving DecidableEq, Repr

/-- Model of `copy_file_with_reflink` backed by `fs::copy`: read the
source's bytes and write them at the target.  Fails when the source is
not a regular file or when a directory occupies the target, as the real
call does.  (The reflink fast path and the byte-copy fallback are
observationally identical.) -/
def copy_file_raw (fs : FS) (source target : List String) : Except String FS :=
  match lookupFS fs source with
  | some (.file c) =>
      if is_dir fs target then .error "fs::copy: cannot copy onto a directory"
      else .ok (setNode fs target (.file c))
  | _ => .error "fs::copy: source is not a regular file"

/-- Model of `copy_symlink` in `copy.rs`: read the recorded link target
of the source symlink and create an identical symlink at the target. -/
def copy_symlink (fs : FS) (source target : List String) : Except String FS :=
  match lookupFS fs source with
  | some (.symlink lt) => .ok (setNode fs target (.symlink lt))
  | _ => .error "read_link: source is not a symlink"

/-- Model of the transfer-engine `copy_file` (`copy.rs` lines 53-95):
skip when the source is absent or the target present, otherwise create
the target's parent chain and copy. -/
def copy_file (fs : FS) (source target : List String) :
    Except String (FS × CopyResult) :=
  if !path_exists fs source then .ok (fs, .sourceNotFound)
  else if path_exists fs target then .ok (fs, .alreadyExists)
  else do
    let fs1 ← mkdirAll fs target.dropLast
    let fs2 ← copy_file_raw fs1 source target
    .ok (fs2, .created 1)

/-- Model of the transfer-engine `overwrite_file` (`copy.rs` lines
108-153): like `copy_file` but without the target-exists skip. -/
def overwrite_file (fs : FS) (source target : List String) :
    Except String (FS × CopyResult) :=
  if !path_exists fs source then .ok (fs, .sourceNotFound)
  else do
    let fs1 ← mkdirAll fs target.dropLast
    let fs2 ← copy_file_raw fs1 source target
    .ok (fs2, .created 1)

/-- Entry collected during directory enumeration (`FileEntry` in
`copy.rs`). -/
structure FileEntry where
  source : List String
  target : List String
  isSymlink : Bool
deriving DecidableEq, Repr

/-- One step of the enumeration loop body: skip the root itself and
directories, otherwise record source, target (root-relative path
re-rooted under the target) and the symlink flag. -/
def entryOfWalk (source target : List String) (w : List String × Node) :
    Option FileEntry :=
  if w.1 = source then none
  else
    match w.2 with
    | .dir => none
    | n => some ⟨w.1, target ++ w.1.drop source.length, isSymlinkNode n⟩

/-- The enumeration loop of `enumerate_directory` over the jwalk entry
stream, where each stream element is a per-entry `Result`: the first
error aborts the enumeration (the `?` in the loop body). -/
def enumerate_loop (source target : List String) :
    List (Except String (List String × Node)) → Except String (List FileEntry)
  | [] => .ok []
  | .error e :: _ => .error e
  | .ok w :: rest => do
      let tail ← enumerate_loop source target rest
      match entryOfWalk source target w with
      | none => .ok tail
      | some fe => .ok (fe :: tail)

/-- The jwalk traversal over the flat filesystem: all bindings at or
below `p`, in filesystem order (jwalk's order is unspecified; with
`follow_links(false)` symlinks are not descended, which the flat model
reflects by storing no bindings below a symlink in well-formed trees). -/
def walkFrom (fs : FS) (p : List String) : List (List String × Node) :=
  fs.filter (fun e => startsWithComps p e.1)

/-- Model of `enumerate_directory` (`copy.rs` lines 267-310).  In the
pure filesystem model the walk itself produces no errors; the
error-carrying loop is shared with the stream-level theorems. -/
def enumerate_directory (fs : FS) (source target : List String) :
    Except String (List FileEntry) :=
  enumerate_loop source target ((walkFrom fs source).map .ok)

/-- The counting loop of `count_files_with_progress` over the jwalk
entry stream: errors are silently dropped (`filter_map(Result::ok)`),
and only regular files are counted (`filter(is_file)`). -/
def count_loop (es : List (Except String (List String × Node))) : Nat :=
  ((es.filterMap (fun x =>
      match x with
      | .ok w => some w
      | .error _ => none)).filter (fun w => isFileNode w.2)).length

/-- Model of `count_files` / `count_files_with_progress`
(`packages/copy/src/count.rs`).  The progress callback is dropped; the
returned count is identical. -/
def count_files (fs : FS) (p : List String) : Nat :=
  if !path_exists fs p then 0
  else if is_symlink fs p then 0
  else if is_file fs p then 1
  else if !is_dir fs p then 0
  else count_loop ((walkFrom fs p).map .ok)

/-- Create the parent directory of every entry in turn (the dedup via
`BTreeSet` in the source only avoids redundant syscalls;
`create_dir_all` is idempotent, so folding over the undeduplicated list
yields the same state). -/
def mkdir_each (fs : FS) : List (List String) → Except String FS
  | [] => .ok fs
  | d :: rest => do
      let fs1 ← mkdirAll fs d
      mkdir_each fs1 rest

/-- Copy one enumerated entry: symlinks are recreated via `copy_symlink`,
regular files via the reflink-or-copy path. -/
def copy_entry (fs : FS) (e : FileEntry) : Except String FS :=
  if e.isSymlink then copy_symlink fs e.source e.target
  else copy_file_raw fs e.source e.target

/-- Copy every enumerated entry (sequentialization of the rayon
`try_for_each` batch; all targets are distinct, so order is
irrelevant to the final state). -/
def copy_each (fs : FS) : List FileEntry → Except String FS
  | [] => .ok fs
  | e :: rest => do
      let fs1 ← copy_entry fs e
      copy_each fs1 rest

/-- Model of the transfer-engine `copy_directory` (`copy.rs` lines
169-264): skip checks, enumerate, create the empty target for an empty
source, otherwise pre-create every entry's parent directory and copy
every entry, returning the copied-entry count. -/
def copy_directory (fs : FS) (source target : List String) :
    Except String (FS × CopyResult) :=
  if !path_exists fs source then .ok (fs, .sourceNotFound)
  else if path_exists fs target then .ok (fs, .alreadyExists)
  else do
    let entries ← enumerate_directory fs source target
    if entries.length = 0 then do
      let fs1 ← mkdirAll fs target
      .ok (fs1, .created 0)
    else do
      let fs1 ← mkdir_each fs (entries.map (fun e => e.target.dropLast))
      let fs2 ← copy_each fs1 entries
      .ok (fs2, .created entries.length)

example :
    copy_directory [(["s"], .dir), (["s", "a"], .file "A"), (["s", "l"], .symlink "a")]
      ["s"] ["t"] =
    .ok ([(["t", "l"], .symlink "a"), (["t", "a"], .file "A"), (["t"], .dir),
          (["s"], .dir), (["s", "a"], .file "A"), (["s", "l"], .symlink "a")],
         .created 2) := by rfl

example :
    count_files [(["s"], .dir), (["s", "a"], .file "A"), (["s", "l"], .symlink "a")]
      ["s"] = 1 := by decide

/-! ## The operations package, `packages/operations/src` -/

/-- Result of an operations-layer operation (`OperationResult`; the
source's `Exists` variant is named `alreadyExists` here). -/
inductive OperationResult where
  | created
  | alreadyExists
  | skipped
  | overwritten
deriving DecidableEq, Repr

/-- Map a transfer-engine result into an operations-layer result, as the
wrappers in `packages/operations/src/copy.rs` do. -/
def map_copy_result : CopyResult → OperationResult
  | .created _ => .created
  | .alreadyExists => .alreadyExists
  | .sourceNotFound => .skipped

/-- Model of operations-layer `copy_file` / `copy_file_with_progress`
(`operations/src/copy.rs` lines 27-62). -/
def copy_file_op (fs : FS) (source target : List String) :
    Except String (FS × OperationResult) := do
  let (fs1, r) ← copy_file fs source target
  .ok (fs1, map_copy_result r)

/-- Model of operations-layer `overwrite_file` /
`overwrite_file_with_progress` (`operations/src/copy.rs` lines 89-124):
records whether the target existed before delegating, and classifies a
successful transfer as Overwritten exactly when it did. -/
def overwrite_file_op (fs : FS) (source target : List String) :
    Except String (FS × OperationResult) :=
  if !path_exists fs source then .ok (fs, .skipped)
  else do
    let existed := path_exists fs target
    let (fs1, r) ← overwrite_file fs source target
    .ok (fs1,
      match r with
      | .created _ => if existed then .overwritten else .created
      | .alreadyExists => .alreadyExists
      | .sourceNotFound => .skipped)

/-- Model of operations-layer `copy_directory_with_progress`
(`operations/src/copy.rs` lines 155-185): ensures the target's parent
exists, then delegates to the transfer engine. -/
def copy_directory_op (fs : FS) (source target : List String) :
    Except String (FS × OperationResult) := do
  let fs0 ← mkdirAll fs target.dropLast
  let (fs1, r) ← copy_directory fs0 source target
  .ok (fs1, map_copy_result r)

/-- Render a rooted component path as the absolute path text a created
symlink records. -/
def renderPath (p : List String) : String := "/" ++ String.intercalate "/" p

/-- Model of `create_symlink` (`operations/src/symlink.rs` lines
28-104): target-is-symlink and source-absent checks first, then parent
creation, removal of any non-symlink occupant, and symlink creation
pointing at the source path passed in. -/
def create_symlink (fs : FS) (source target : List String) :
    Except String (FS × OperationResult) :=
  if is_symlink fs target then .ok (fs, .alreadyExists)
  else if !path_exists fs source then .ok (fs, .skipped)
  else do
    let fs1 ← mkdirAll fs target.dropLast
    let fs2 :=
      if path_exists fs1 target then
        if is_dir fs1 target then removeTree fs1 target else removeKey fs1 target
      else fs1
    .ok (setNode fs2 target (.symlink (renderPath source)), .created)

/-- Kind of a planned operation (`OperationType` in
`operations/src/plan.rs`). -/
inductive OperationType where
  | Symlink
  | Copy
  | Overwrite
  | CopyGlob
  | Template
  | Unstaged
deriving DecidableEq, Repr

/-- A planned operation with metadata (`PlannedOperation` in
`operations/src/plan.rs`). -/
structure PlannedOperation where
  display_path : String
  operation_type : OperationType
  source : List String
  target : List String
  file_count : Nat
  is_directory : Bool
  will_skip : Bool
  skip_reason : Option String
deriving DecidableEq, Repr

/-- A configuration path, pre-parsed: `rooted` records the leading path
separator (repo-root-relative), `comps` the remaining components.  This
is the component-level counterpart of the raw strings the planner
resolves; the string-level `resolve_path` is modelled separately
below. -/
structure RawPath where
  rooted : Bool
  comps : List String
deriving DecidableEq, Repr

/-- Component-level `resolve_path` (`operations/src/plan.rs` lines
80-89): rooted paths join the base directly with the stripped remainder
as display label; other paths display as config-dir-relative and join
the base with that label. -/
def resolve_comps (base cfgRel : List String) (p : RawPath) :
    List String × String :=
  if p.rooted then (base ++ p.comps, String.intercalate "/" p.comps)
  else (base ++ cfgRel ++ p.comps, String.intercalate "/" (cfgRel ++ p.comps))

/-- Plan one symlink declaration (`plan.rs` lines 171-196). -/
def plan_symlink (fs : FS) (mainW targetW cfgRel : List String) (p : RawPath) :
    PlannedOperation :=
  let r := resolve_comps mainW cfgRel p
  let rt := resolve_comps targetW cfgRel p
  let sk : Bool × Option String :=
    if !path_exists fs r.1 then (true, some "not found")
    else if path_exists fs rt.1 || is_symlink fs rt.1 then (true, some "exists")
    else (false, none)
  { display_path := r.2, operation_type := .Symlink, source := r.1,
    target := rt.1, file_count := 0, is_directory := false,
    will_skip := sk.1, skip_reason := sk.2 }

/-- Plan one explicit copy declaration (`plan.rs` lines 199-232). -/
def plan_copy (fs : FS) (mainW targetW cfgRel : List String) (p : RawPath) :
    PlannedOperation :=
  let r := resolve_comps mainW cfgRel p
  let rt := resolve_comps targetW cfgRel p
  let sk : Bool × Option String × Nat × Bool :=
    if !path_exists fs r.1 then (true, some "not found", 0, false)
    else if path_exists fs rt.1 then (true, some "exists", 0, false)
    else
      let isd := is_dir fs r.1
      (false, none, if isd then count_files fs r.1 else 1, isd)
  { display_path := r.2, operation_type := .Copy, source := r.1,
    target := rt.1, file_count := sk.2.2.1, is_directory := sk.2.2.2,
    will_skip := sk.1, skip_reason := sk.2.1 }

/-- Plan one overwrite declaration (`plan.rs` lines 235-267): an
existing target is not checked — only an absent source skips. -/
def plan_overwrite (fs : FS) (mainW targetW cfgRel : List String) (p : RawPath) :
    PlannedOperation :=
  let r := resolve_comps mainW cfgRel p
  let rt := resolve_comps targetW cfgRel p
  let sk : Bool × Option String × Nat × Bool :=
    if !path_exists fs r.1 then (true, some "not found", 0, false)
    else
      let isd := is_dir fs r.1
      (false, none, if isd then count_files fs r.1 else 1, isd)
  { display_path := r.2, operation_type := .Overwrite, source := r.1,
    target := rt.1, file_count := sk.2.2.1, is_directory := sk.2.2.2,
    will_skip := sk.1, skip_reason := sk.2.1 }

/-- A glob pattern, pre-parsed for its leading separator. -/
structure GlobPat where
  rooted : Bool
  pat : String
deriving DecidableEq, Repr

/-- Plan one glob pattern (`plan.rs` lines 270-323).  The external
`glob::glob` expansion is an oracle parameter producing the matched
absolute paths; matches outside the search directory are dropped by the
`strip_prefix` filter exactly as in the source. -/
def plan_glob (fs : FS) (mainW targetW cfgRel : List String)
    (globMatches : GlobPat → List (List String)) (g : GlobPat) :
    List PlannedOperation :=
  let searchDir := if g.rooted then mainW else mainW ++ cfgRel
  (globMatches g).filterMap (fun m =>
    if startsWithComps searchDir m then
      let rel := m.drop searchDir.length
      let target := if g.rooted then targetW ++ rel else targetW ++ cfgRel ++ rel
      let sk : Bool × Option String :=
        if path_exists fs target then (true, some "exists") else (false, none)
      some { display_path :=
               String.intercalate "/" ((if g.rooted then [] else cfgRel) ++ rel),
             operation_type := .CopyGlob, source := m, target := target,
             file_count := 1, is_directory := false,
             will_skip := sk.1, skip_reason := sk.2 }
    else none)

/-- A template mapping (source and target each independently rooted or
config-relative). -/
structure TemplateMapping where
  source : RawPath
  target : RawPath
deriving DecidableEq, Repr

/-- Plan one template mapping (`plan.rs` lines 326-354). -/
def plan_template (fs : FS) (mainW targetW cfgRel : List String)
    (t : TemplateMapping) : PlannedOperation :=
  let rs := resolve_comps mainW cfgRel t.source
  let rt := resolve_comps targetW cfgRel t.target
  let sk : Bool × Option String :=
    if !path_exists fs rs.1 then (true, some "not found")
    else if path_exists fs rt.1 then (true, some "exists")
    else (false, none)
  { display_path := rs.2 ++ " -> " ++ rt.2, operation_type := .Template,
    source := rs.1, target := rt.1, file_count := 1, is_directory := false,
    will_skip := sk.1, skip_reason := sk.2 }

/-- The five path-bearing configuration lists the planner consumes. -/
structure Config where
  symlinks : List RawPath
  copy : List RawPath
  overwrite : List RawPath
  copy_glob : List GlobPat
  templates : List TemplateMapping
deriving Repr

/-- Model of `plan_operations` / `plan_operations_with_progress`
(`plan.rs` lines 143-361): one pass per list in fixed order, appending
to a single result list.  Progress reporting is dropped. -/
def plan_operations (fs : FS) (mainW targetW cfgRel : List String)
    (globMatches : GlobPat → List (List String)) (cfg : Config) :
    List PlannedOperation :=
  cfg.symlinks.map (plan_symlink fs mainW targetW cfgRel)
    ++ cfg.copy.map (plan_copy fs mainW targetW cfgRel)
    ++ cfg.overwrite.map (plan_overwrite fs mainW targetW cfgRel)
    ++ cfg.copy_glob.flatMap (plan_glob fs mainW targetW cfgRel globMatches)
    ++ cfg.templates.map (plan_template fs mainW targetW cfgRel)

/-- Model of `plan_unstaged_operations` (`plan.rs` lines 377-404). -/
def plan_unstaged_operations (fs : FS) (mainW targetW : List String)
    (files : List (List String)) : List PlannedOperation :=
  files.filterMap (fun f =>
    if path_exists fs (mainW ++ f) then
      some { display_path := String.intercalate "/" f,
             operation_type := .Unstaged, source := mainW ++ f,
             target := targetW ++ f, file_count := 1, is_directory := false,
             will_skip := false, skip_reason := none }
    else none)

/-- Model of `execute_operation` (`operations/src/apply.rs` lines
214-272): skip-flagged operations return Exists/Skipped per the skip
reason without touching the filesystem; otherwise dispatch on kind and
directory flag. -/
def execute_operation (fs : FS) (op : PlannedOperation) :
    Except String (FS × OperationResult) :=
  if op.will_skip then
    .ok (fs,
      match op.skip_reason with
      | some r => if r = "exists" then .alreadyExists else .skipped
      | none => .skipped)
  else
    match op.operation_type with
    | .Symlink => create_symlink fs op.source op.target
    | .Copy | .CopyGlob | .Template =>
        if op.is_directory then copy_directory_op fs op.source op.target
        else copy_file_op fs op.source op.target
    | .Overwrite | .Unstaged =>
        if op.is_directory then copy_directory_op fs op.source op.target
        else overwrite_file_op fs op.source op.target

/-! ## String-level path model for `resolve_path` and `apply_config`

The planner's `resolve_path` and the unplanned `apply_config` path
operate on raw strings and `Path::join`.  `RPath` models a Rust path as
an absoluteness flag plus components; `RPath.join` models `Path::join`
(an absolute argument replaces the accumulated path). -/

/-- A Rust path value: absolute flag plus components. -/
structure RPath where
  isAbs : Bool
  comps : List String
deriving DecidableEq, Repr

/-- Model of `Path::join`: an absolute right operand replaces the left
entirely; a relative one is appended. -/
def RPath.join (p q : RPath) : RPath :=
  if q.isAbs then q else ⟨p.isAbs, p.comps ++ q.comps⟩

/-- Split a character list on slashes. -/
def splitSlashAux : List Char → List Char → List (List Char)
  | [], acc => [acc.reverse]
  | c :: rest, acc =>
      if c = '/' then acc.reverse :: splitSlashAux rest []
      else splitSlashAux rest (c :: acc)

/-- Parse a raw path string into an `RPath` (kernel-reducible; the
standard string API does not reduce in the kernel). -/
def parseRPath (s : String) : RPath :=
  ⟨(match s.toList with | '/' :: _ => true | _ => false),
   ((splitSlashAux s.toList []).filter (fun p => !p.isEmpty)).map
     (fun p => String.mk p)⟩

/-- Render an `RPath` back to text (for display labels). -/
def renderRPath (p : RPath) : String :=
  (if p.isAbs then "/" else "") ++ String.intercalate "/" p.comps

/-- Model of `path.strip_prefix('/')`: strip exactly one leading
separator. -/
def stripLeadSlash (s : String) : Option String :=
  match s.toList with
  | '/' :: rest => some (String.mk rest)
  | _ => none

/-- String-level model of `resolve_path` (`plan.rs` lines 80-89). -/
def resolve_path (base cfgRel : RPath) (path : String) : RPath × String :=
  match stripLeadSlash path with
  | some stripped => (base.join (parseRPath stripped), stripped)
  | none =>
      let display := cfgRel.join (parseRPath path)
      (base.join display, renderRPath display)

/-- The path resolution `apply_config` performs for each declared path
(`operations/src/apply.rs` lines 100-110): sequential `Path::join` of
the worktree root, the config-relative directory and the raw path. -/
def apply_config_resolve (root cfgRel : RPath) (raw : String) : RPath :=
  (root.join cfgRel).join (parseRPath raw)

example :
    resolve_path ⟨true, ["repo"]⟩ ⟨false, ["apps", "x"]⟩ "local.txt" =
      (⟨true, ["repo", "apps", "x", "local.txt"]⟩, "apps/x/local.txt") := by rfl

example :
    resolve_path ⟨true, ["repo"]⟩ ⟨false, ["apps", "x"]⟩ "/.env" =
      (⟨true, ["repo", ".env"]⟩, ".env") := by rfl

example :
    apply_config_resolve ⟨true, ["repo"]⟩ ⟨false, ["apps", "x"]⟩ "/.env" =
      ⟨true, [".env"]⟩ := by rfl

/-! ## Basic lemmas about the filesystem model -/

theorem lookupFS_cons (q : List String) (n : Node) (fs : FS) (p : List String) :
    lookupFS ((q, n) :: fs) p = if q = p then some n else lookupFS fs p := rfl

theorem lookup_removeKey (fs : FS) (p x : List String) :
    lookupFS (removeKey fs p) x = if x = p then none else lookupFS fs x := by
  induction fs with
  | nil => simp only [removeKey, lookupFS]; split <;> rfl
  | cons e rest ih =>
      obtain ⟨q, n⟩ := e
      by_cases hqp : q = p
      · subst hqp
        have h1 : removeKey ((q, n) :: rest) q = removeKey rest q := by
          simp [removeKey]
        rw [h1, ih, lookupFS_cons]
        by_cases hxq : x = q
        · simp [hxq]
        · have hqx : ¬ q = x := fun h => hxq h.symm
          simp [hxq, hqx]
      · have h1 : removeKey ((q, n) :: rest) p = (q, n) :: removeKey rest p := by
          simp [removeKey, hqp]
        rw [h1, lookupFS_cons, ih, lookupFS_cons]
        by_cases hqx : q = x
        · have hxp : ¬ x = p := by rw [← hqx]; exact hqp
          simp [hqx, hxp]
        · simp [hqx]

theorem lookup_setNode (fs : FS) (p x : List String) (n : Node) :
    lookupFS (setNode fs p n) x = if p = x then some n else lookupFS fs x := by
  unfold setNode
  rw [lookupFS_cons, lookup_removeKey]
  by_cases hpx : p = x
  · simp [hpx]
  · have hxp : ¬ x = p := fun h => hpx h.symm
    simp [hpx, hxp]

theorem lookup_removeTree (fs : FS) (p x : List String) :
    lookupFS (removeTree fs p) x =
      if startsWithComps p x then none else lookupFS fs x := by
  induction fs with
  | nil => simp only [removeTree, lookupFS]; split <;> rfl
  | cons e rest ih =>
      obtain ⟨q, n⟩ := e
      by_cases hq : startsWithComps p q = true
      · have h1 : removeTree ((q, n) :: rest) p = removeTree rest p := by
          simp [removeTree, hq]
        rw [h1, ih, lookupFS_cons]
        by_cases hqx : q = x
        · subst hqx; simp [hq]
        · simp [hqx]
      · have h1 : removeTree ((q, n) :: rest) p = (q, n) :: removeTree rest p := by
          simp [removeTree, hq]
        rw [h1, lookupFS_cons, ih, lookupFS_cons]
        by_cases hqx : q = x
        · subst hqx
          simp [hq]
        · simp [hqx]

theorem startsWithComps_iff (p q : List String) :
    startsWithComps p q = true ↔ ∃ r, q = p ++ r := by
  induction p generalizing q with
  | nil => simp [startsWithComps]
  | cons a as ih =>
      cases q with
      | nil =>
          constructor
          · intro h; simp [startsWithComps] at h
          · rintro ⟨r, hr⟩; simp at hr
      | cons b bs =>
          constructor
          · intro h
            by_cases hab : a = b
            · subst hab
              have h' : startsWithComps as bs = true := by
                simpa [startsWithComps] using h
              obtain ⟨r, hr⟩ := (ih bs).mp h'
              exact ⟨r, by simp [hr]⟩
            · simp [startsWithComps, hab] at h
          · rintro ⟨r, hr⟩
            have h1 : b = a := by
              have := List.cons_append a as r ▸ hr
              injection this
            subst h1
            have h2 : bs = as ++ r := by
              have := List.cons_append b as r ▸ hr
              injection this with _ h2
            have h3 : startsWithComps as bs = true := (ih bs).mpr ⟨r, h2⟩
            simp [startsWithComps, h3]

theorem startsWithComps_append (p r : List String) :
    startsWithComps p (p ++ r) = true :=
  (startsWithComps_iff p (p ++ r)).mpr ⟨r, rfl⟩

theorem startsWithComps_refl (p : List String) : startsWithComps p p = true := by
  simpa using startsWithComps_append p []

theorem append_drop_of_startsWith {p q : List String}
    (h : startsWithComps p q = true) : p ++ q.drop p.length = q := by
  obtain ⟨r, rfl⟩ := (startsWithComps_iff p q).mp h
  simp

theorem length_le_of_startsWith {p q : List String}
    (h : startsWithComps p q = true) : p.length ≤ q.length := by
  obtain ⟨r, rfl⟩ := (startsWithComps_iff p q).mp h
  simp

theorem strictUnder_iff (p q : List String) :
    strictUnder p q = true ↔ ∃ r, r ≠ [] ∧ q = p ++ r := by
  unfold strictUnder
  by_cases hpq : p = q
  · subst hpq
    simp only [if_pos rfl]
    constructor
    · intro h; cases h
    · rintro ⟨r, hr, h⟩
      exact absurd (by simpa using congrArg List.length h) (by simpa using hr)
  · rw [if_neg hpq, startsWithComps_iff]
    constructor
    · rintro ⟨r, rfl⟩
      refine ⟨r, ?_, rfl⟩
      rintro rfl
      exact hpq (by simp)
    · rintro ⟨r, _, rfl⟩
      exact ⟨r, rfl⟩

theorem mem_pathPrefixesOf (q p : List String) :
    q ∈ pathPrefixesOf p ↔ q ≠ [] ∧ startsWithComps q p = true := by
  induction p generalizing q with
  | nil =>
      simp only [pathPrefixesOf, List.not_mem_nil, false_iff]
      rintro ⟨hne, hsw⟩
      cases q with
      | nil => exact hne rfl
      | cons b bs => simp [startsWithComps] at hsw
  | cons a rest ih =>
      simp only [pathPrefixesOf, List.mem_cons, List.mem_map]
      cases q with
      | nil =>
          constructor
          · rintro (h | ⟨q', _, h⟩) <;> cases h
          · rintro ⟨hne, _⟩; exact absurd rfl hne
      | cons b bs =>
          by_cases hba : b = a
          · subst hba
            cases bs with
            | nil =>
                simp [startsWithComps]
            | cons c cs =>
                constructor
                · rintro (h | ⟨q', hq', h⟩)
                  · cases h
                  · have h2 : q' = c :: cs := by simpa using h
                    subst h2
                    obtain ⟨_, hsw⟩ := (ih (c :: cs)).mp hq'
                    exact ⟨by simp, by simp [startsWithComps, hsw]⟩
                · rintro ⟨_, hsw⟩
                  have hsw' : startsWithComps (c :: cs) rest = true := by
                    simpa [startsWithComps] using hsw
                  exact Or.inr ⟨c :: cs, (ih (c :: cs)).mpr ⟨by simp, hsw'⟩, rfl⟩
          · constructor
            · rintro (h | ⟨q', _, h⟩)
              · injection h with h1 _
                exact absurd h1 hba
              · injection h with h1 _
                exact absurd h1.symm hba
            · rintro ⟨_, hsw⟩
              simp [startsWithComps, hba] at hsw

/-- Everything a `create_dir_all` chain will touch is absent or already
a directory. -/
def dirOkOn (fs : FS) (L : List (List String)) : Prop :=
  ∀ q ∈ L, lookupFS fs q = none ∨ lookupFS fs q = some .dir

instance (fs : FS) (L : List (List String)) : Decidable (dirOkOn fs L) :=
  decidable_of_iff
    (∀ q ∈ L, lookupFS fs q = none ∨ lookupFS fs q = some .dir) Iff.rfl

theorem mkdirList_spec (fs : FS) (L : List (List String)) (h : dirOkOn fs L) :
    ∃ fs', mkdirList fs L = .ok fs' ∧
      ∀ x, lookupFS fs' x =
        if x ∈ L ∧ lookupFS fs x = none then some .dir else lookupFS fs x := by
  induction L generalizing fs with
  | nil => exact ⟨fs, rfl, fun x => by simp [mkdirList]⟩
  | cons q rest ih =>
      have hq := h q (by simp)
      have hrest : dirOkOn fs rest := fun r hr => h r (by simp [hr])
      rcases hq with hq | hq
      · have hstep : mkdirList fs (q :: rest) = mkdirList ((q, Node.dir) :: fs) rest := by
          simp [mkdirList, hq]
        have hrest' : dirOkOn ((q, Node.dir) :: fs) rest := by
          intro r hr
          rw [lookupFS_cons]
          by_cases hqr : q = r
          · right; simp [hqr]
          · simpa [hqr] using hrest r hr
        obtain ⟨fs', hok, hchar⟩ := ih ((q, Node.dir) :: fs) hrest'
        refine ⟨fs', by rw [hstep, hok], ?_⟩
        intro x
        have hx := hchar x
        rw [lookupFS_cons] at hx
        by_cases hqx : q = x
        · subst hqx
          have hdir : lookupFS fs' q = some Node.dir := by simpa using hx
          rw [hdir]
          simp [hq]
        · have hxq : ¬ x = q := fun hh => hqx hh.symm
          rw [if_neg hqx] at hx
          rw [hx]
          simp [List.mem_cons, hxq]
      · have hstep : mkdirList fs (q :: rest) = mkdirList fs rest := by
          simp [mkdirList, hq]
        obtain ⟨fs', hok, hchar⟩ := ih fs hrest
        refine ⟨fs', by rw [hstep, hok], ?_⟩
        intro x
        have hx := hchar x
        by_cases hqx : x = q
        · subst hqx
          simpa [hq] using hx
        · rw [hx]
          simp [List.mem_cons, hqx]

theorem mkdirAll_spec (fs : FS) (p : List String)
    (h : dirOkOn fs (pathPrefixesOf p)) :
    ∃ fs', mkdirAll fs p = .ok fs' ∧
      ∀ x, lookupFS fs' x =
        if x ∈ pathPrefixesOf p ∧ lookupFS fs x = none then some .dir
        else lookupFS fs x :=
  mkdirList_spec fs (pathPrefixesOf p) h

theorem mkdir_each_spec (ds : List (List String)) (fs : FS)
    (h : dirOkOn fs (ds.flatMap pathPrefixesOf)) :
    ∃ fs', mkdir_each fs ds = .ok fs' ∧
      ∀ x, lookupFS fs' x =
        if x ∈ ds.flatMap pathPrefixesOf ∧ lookupFS fs x = none then some .dir
        else lookupFS fs x := by
  induction ds generalizing fs with
  | nil => exact ⟨fs, rfl, fun x => by simp [mkdir_each]⟩
  | cons d rest ih =>
      have hd : dirOkOn fs (pathPrefixesOf d) := by
        intro r hr
        exact h r (by simp [List.flatMap_cons, hr])
      obtain ⟨fs1, hok1, hchar1⟩ := mkdirAll_spec fs d hd
      have hrest : dirOkOn fs1 (rest.flatMap pathPrefixesOf) := by
        intro r hr
        rw [hchar1 r]
        by_cases hc : r ∈ pathPrefixesOf d ∧ lookupFS fs r = none
        · simp [hc]
        · rw [if_neg hc]
          exact h r (by simp [List.flatMap_cons, hr])
      obtain ⟨fs', hok2, hchar2⟩ := ih fs1 hrest
      refine ⟨fs', ?_, ?_⟩
      · show (do
            let y ← mkdirAll fs d
            mkdir_each y rest) = Except.ok fs'
        rw [hok1]
        exact hok2
      intro x
      rw [hchar2 x, hchar1 x]
      by_cases hc1 : x ∈ pathPrefixesOf d ∧ lookupFS fs x = none
      · rw [if_pos hc1]
        have hcond : ¬ (x ∈ rest.flatMap pathPrefixesOf ∧
            (some Node.dir : Option Node) = none) := by simp
        rw [if_neg hcond]
        rw [if_pos ⟨by simp [List.flatMap_cons, hc1.1], hc1.2⟩]
      · rw [if_neg hc1]
        by_cases hn : lookupFS fs x = none
        · have hdm : x ∉ pathPrefixesOf d := fun hm => hc1 ⟨hm, hn⟩
          by_cases hr : x ∈ rest.flatMap pathPrefixesOf
          · rw [if_pos ⟨hr, hn⟩, if_pos ⟨by simp [List.flatMap_cons, hr], hn⟩]
          · rw [if_neg (fun hh => hr hh.1), if_neg ?_]
            rintro ⟨hm, -⟩
            rw [List.flatMap_cons, List.mem_append] at hm
            rcases hm with hm | hm
            · exact hdm hm
            · exact hr hm
        · rw [if_neg (fun hh => hn hh.2), if_neg (fun hh => hn hh.2)]

theorem path_exists_iff (fs : FS) (p : List String) :
    path_exists fs p = true ↔ ∃ n, lookupFS fs p = some n := by
  unfold path_exists
  cases h : lookupFS fs p <;> simp [h]

theorem path_exists_false_iff (fs : FS) (p : List String) :
    path_exists fs p = false ↔ lookupFS fs p = none := by
  unfold path_exists
  cases h : lookupFS fs p <;> simp [h]

theorem is_dir_iff (fs : FS) (p : List String) :
    is_dir fs p = true ↔ lookupFS fs p = some .dir := by
  unfold is_dir
  cases h : lookupFS fs p with
  | none => simp
  | some n => cases n <;> simp

theorem is_file_iff (fs : FS) (p : List String) :
    is_file fs p = true ↔ ∃ c, lookupFS fs p = some (.file c) := by
  unfold is_file
  cases h : lookupFS fs p with
  | none => simp
  | some n => cases n <;> simp

theorem is_symlink_iff (fs : FS) (p : List String) :
    is_symlink fs p = true ↔ ∃ lt, lookupFS fs p = some (.symlink lt) := by
  unfold is_symlink
  cases h : lookupFS fs p with
  | none => simp
  | some n => cases n <;> simp

theorem copy_each_spec (entries : List FileEntry) (fs : FS)
    (hsrc : ∀ e ∈ entries,
      (e.isSymlink = true → ∃ lt, lookupFS fs e.source = some (.symlink lt)) ∧
      (e.isSymlink = false → ∃ c, lookupFS fs e.source = some (.file c)))
    (htgt : ∀ e ∈ entries, lookupFS fs e.target ≠ some .dir)
    (hts : ∀ e ∈ entries, ∀ e' ∈ entries, e.target ≠ e'.source)
    (hnodup : (entries.map FileEntry.target).Nodup) :
    ∃ fs', copy_each fs entries = .ok fs' ∧
      (∀ x, x ∉ entries.map FileEntry.target → lookupFS fs' x = lookupFS fs x) ∧
      (∀ e ∈ entries, lookupFS fs' e.target = lookupFS fs e.source) := by
  induction entries generalizing fs with
  | nil => exact ⟨fs, rfl, fun x _ => rfl, by simp⟩
  | cons e rest ih =>
      have hme : e ∈ e :: rest := by simp
      have hstep : ∃ ns, lookupFS fs e.source = some ns ∧
          copy_entry fs e = .ok (setNode fs e.target ns) := by
        cases hsym : e.isSymlink with
        | true =>
            obtain ⟨lt, hlt⟩ := (hsrc e hme).1 hsym
            exact ⟨.symlink lt, hlt, by simp [copy_entry, hsym, copy_symlink, hlt]⟩
        | false =>
            obtain ⟨c, hc⟩ := (hsrc e hme).2 hsym
            have hnd : is_dir fs e.target = false := by
              cases h : is_dir fs e.target
              · rfl
              · exact absurd ((is_dir_iff fs e.target).mp h) (htgt e hme)
            exact ⟨.file c, hc, by simp [copy_entry, hsym, copy_file_raw, hc, hnd]⟩
      obtain ⟨ns, hns, hstep⟩ := hstep
      set fs1 := setNode fs e.target ns with hfs1
      have hlook1 : ∀ x, lookupFS fs1 x =
          if e.target = x then some ns else lookupFS fs x := by
        intro x
        exact lookup_setNode fs e.target x ns
      have hnotin : e.target ∉ rest.map FileEntry.target := by
        have := hnodup
        simp only [List.map_cons, List.nodup_cons] at this
        exact this.1
      have hsrc1 : ∀ e' ∈ rest,
          (e'.isSymlink = true → ∃ lt, lookupFS fs1 e'.source = some (.symlink lt)) ∧
          (e'.isSymlink = false → ∃ c, lookupFS fs1 e'.source = some (.file c)) := by
        intro e' he'
        have hne : e.target ≠ e'.source := hts e hme e' (by simp [he'])
        rw [hlook1 e'.source, if_neg hne]
        exact hsrc e' (by simp [he'])
      have htgt1 : ∀ e' ∈ rest, lookupFS fs1 e'.target ≠ some .dir := by
        intro e' he'
        have hne : e.target ≠ e'.target := by
          intro hh
          exact hnotin (hh ▸ List.mem_map_of_mem FileEntry.target he')
        rw [hlook1 e'.target, if_neg hne]
        exact htgt e' (by simp [he'])
      have hts1 : ∀ e' ∈ rest, ∀ e'' ∈ rest, e'.target ≠ e''.source := by
        intro e' he' e'' he''
        exact hts e' (by simp [he']) e'' (by simp [he''])
      have hnodup1 : (rest.map FileEntry.target).Nodup := by
        have := hnodup
        simp only [List.map_cons, List.nodup_cons] at this
        exact this.2
      obtain ⟨fs', hok, hunch, hcopied⟩ := ih fs1 hsrc1 htgt1 hts1 hnodup1
      refine ⟨fs', ?_, ?_, ?_⟩
      · show (do
            let y ← copy_entry fs e
            copy_each y rest) = Except.ok fs'
        rw [hstep]
        exact hok
      · intro x hx
        have hx1 : x ∉ rest.map FileEntry.target := by
          intro hh
          exact hx (by simp [hh])
        have hx2 : e.target ≠ x := by
          intro hh
          exact hx (by simp [← hh])
        rw [hunch x hx1, hlook1 x, if_neg hx2]
      · intro e' he'
        rcases List.mem_cons.mp he' with he' | he'
        · subst he'
          have h1 : e'.target ∉ rest.map FileEntry.target := hnotin
          rw [hunch e'.target h1, hlook1 e'.target, if_pos rfl, hns]
        · have hne : e.target ≠ e'.source := hts e hme e' (by simp [he'])
          rw [hcopied e' he', hlook1 e'.source, if_neg hne]

/-- True on directory nodes. -/
def isDirNode : Node → Bool
  | .dir => true
  | _ => false

/-- The entry list `enumerate_directory` produces in the pure model. -/
def enumerated (fs : FS) (src tgt : List String) : List FileEntry :=
  (walkFrom fs src).filterMap (entryOfWalk src tgt)

theorem enumerate_loop_ok (source target : List String)
    (ws : List (List String × Node)) :
    enumerate_loop source target (ws.map .ok) =
      .ok (ws.filterMap (entryOfWalk source target)) := by
  induction ws with
  | nil => rfl
  | cons w rest ih =>
      show (do
          let tail ← enumerate_loop source target (rest.map .ok)
          match entryOfWalk source target w with
          | none => Except.ok tail
          | some fe => Except.ok (fe :: tail)) = _
      rw [ih]
      cases h : entryOfWalk source target w <;>
        simp only [List.filterMap_cons, h] <;> rfl

theorem enumerate_directory_eq (fs : FS) (src tgt : List String) :
    enumerate_directory fs src tgt = .ok (enumerated fs src tgt) :=
  enumerate_loop_ok src tgt (walkFrom fs src)

theorem entryOfWalk_eq_some {src tgt : List String} {w : List String × Node}
    {fe : FileEntry} :
    entryOfWalk src tgt w = some fe ↔
      w.1 ≠ src ∧ isDirNode w.2 = false ∧
      fe = ⟨w.1, tgt ++ w.1.drop src.length, isSymlinkNode w.2⟩ := by
  unfold entryOfWalk
  by_cases h1 : w.1 = src
  · simp [h1]
  · cases hn : w.2 <;> simp [h1, hn, isDirNode, isSymlinkNode, eq_comm]

theorem mem_walkFrom {fs : FS} {p : List String} {w : List String × Node} :
    w ∈ walkFrom fs p ↔ w ∈ fs ∧ startsWithComps p w.1 = true := by
  unfold walkFrom
  simp [List.mem_filter]

theorem mem_enumerated {fs : FS} {src tgt : List String} {fe : FileEntry} :
    fe ∈ enumerated fs src tgt ↔
      ∃ n, (fe.source, n) ∈ fs ∧ startsWithComps src fe.source = true ∧
        fe.source ≠ src ∧ isDirNode n = false ∧
        fe.isSymlink = isSymlinkNode n ∧
        fe.target = tgt ++ fe.source.drop src.length := by
  unfold enumerated
  rw [List.mem_filterMap]
  constructor
  · rintro ⟨w, hw, hfe⟩
    obtain ⟨hmem, hsw⟩ := mem_walkFrom.mp hw
    obtain ⟨h1, h2, h3⟩ := entryOfWalk_eq_some.mp hfe
    subst h3
    exact ⟨w.2, by simpa using hmem, hsw, h1, h2, rfl, rfl⟩
  · rintro ⟨n, hmem, hsw, hne, hnd, hsym, htgt⟩
    refine ⟨(fe.source, n), mem_walkFrom.mpr ⟨hmem, hsw⟩, ?_⟩
    rw [entryOfWalk_eq_some]
    refine ⟨hne, hnd, ?_⟩
    cases fe
    simp_all

theorem lookup_of_mem_nodup {fs : FS} (hnd : (keysFS fs).Nodup)
    {q : List String} {n : Node} (h : (q, n) ∈ fs) : lookupFS fs q = some n := by
  induction fs with
  | nil => cases h
  | cons e rest ih =>
      obtain ⟨a, b⟩ := e
      have hnd' : (keysFS rest).Nodup ∧ a ∉ keysFS rest := by
        have := hnd
        simp only [keysFS, List.map_cons, List.nodup_cons] at this
        exact ⟨this.2, this.1⟩
      rcases List.mem_cons.mp h with h | h
      · obtain ⟨h1, h2⟩ := Prod.mk.injEq .. ▸ h
        rw [lookupFS_cons, if_pos h1.symm]
        exact congrArg some h2.symm
      · have haq : ¬ a = q := by
          intro hh
          subst hh
          exact hnd'.2 (List.mem_map_of_mem Prod.fst h)
        rw [lookupFS_cons, if_neg haq]
        exact ih hnd'.1 h

theorem mem_of_lookup {fs : FS} {q : List String} {n : Node}
    (h : lookupFS fs q = some n) : (q, n) ∈ fs := by
  induction fs with
  | nil => cases h
  | cons e rest ih =>
      obtain ⟨a, b⟩ := e
      rw [lookupFS_cons] at h
      by_cases haq : a = q
      · rw [if_pos haq] at h
        subst haq
        exact List.mem_cons.mpr (Or.inl (by simpa using h.symm))
      · rw [if_neg haq] at h
        exact List.mem_cons.mpr (Or.inr (ih h))

theorem startsWith_cancel (a b c : List String) :
    startsWithComps (a ++ b) (a ++ c) = startsWithComps b c := by
  induction a with
  | nil => rfl
  | cons x xs ih => simpa [startsWithComps] using ih

theorem startsWith_trans {a b c : List String}
    (h1 : startsWithComps a b = true) (h2 : startsWithComps b c = true) :
    startsWithComps a c = true := by
  obtain ⟨r1, rfl⟩ := (startsWithComps_iff a b).mp h1
  obtain ⟨r2, rfl⟩ := (startsWithComps_iff (a ++ r1) c).mp h2
  exact (startsWithComps_iff _ _).mpr ⟨r1 ++ r2, by simp⟩

theorem startsWith_of_prefix_append {q a b : List String}
    (h : startsWithComps q (a ++ b) = true) :
    startsWithComps q a = true ∨ startsWithComps a q = true := by
  induction a generalizing q with
  | nil => exact Or.inr rfl
  | cons x as ih =>
      cases q with
      | nil => exact Or.inl rfl
      | cons y qs =>
          have hy : y = x := by
            by_contra hne
            simp [startsWithComps, hne] at h
          subst hy
          have h' : startsWithComps qs (as ++ b) = true := by
            simpa [startsWithComps] using h
          rcases ih h' with h'' | h'' <;>
            simp [startsWithComps, h'']

theorem startsWith_dropLast {x y : List String} (hy : y ≠ [])
    (h : startsWithComps x y.dropLast = true) : startsWithComps x y = true := by
  have hd : startsWithComps y.dropLast y = true := by
    refine (startsWithComps_iff _ _).mpr ⟨[y.getLast hy], ?_⟩
    exact (List.dropLast_append_getLast hy).symm
  exact startsWith_trans h hd

theorem enumerated_source_eq {fs : FS} {src tgt : List String} {fe : FileEntry}
    (h : fe ∈ enumerated fs src tgt) :
    src ++ fe.source.drop src.length = fe.source := by
  obtain ⟨n, _, hsw, _⟩ := mem_enumerated.mp h
  exact append_drop_of_startsWith hsw

theorem enumerated_rel_ne_nil {fs : FS} {src tgt : List String} {fe : FileEntry}
    (h : fe ∈ enumerated fs src tgt) : fe.source.drop src.length ≠ [] := by
  obtain ⟨n, _, hsw, hne, _⟩ := mem_enumerated.mp h
  intro hnil
  have e1 := append_drop_of_startsWith hsw
  rw [hnil, List.append_nil] at e1
  exact hne e1.symm

theorem enumerated_targets_nodup (fs : FS) (src tgt : List String)
    (hnd : (keysFS fs).Nodup) :
    ((enumerated fs src tgt).map FileEntry.target).Nodup := by
  unfold enumerated
  have hwalk : (keysFS (walkFrom fs src)).Nodup := by
    unfold keysFS walkFrom
    exact (hnd.sublist (List.Sublist.map Prod.fst (List.filter_sublist fs)))
  have hall : ∀ w ∈ walkFrom fs src, startsWithComps src w.1 = true := by
    intro w hw
    exact (mem_walkFrom.mp hw).2
  revert hwalk hall
  induction walkFrom fs src with
  | nil => intro _ _; simp
  | cons w rest ih =>
      intro hwalk hall
      have hwalk' : (keysFS rest).Nodup ∧ w.1 ∉ keysFS rest := by
        have := hwalk
        simp only [keysFS, List.map_cons, List.nodup_cons] at this
        exact ⟨this.2, this.1⟩
      have hall' : ∀ w' ∈ rest, startsWithComps src w'.1 = true := by
        intro w' hw'
        exact hall w' (by simp [hw'])
      have ihr := ih hwalk'.1 hall'
      cases h : entryOfWalk src tgt w with
      | none => simpa [List.filterMap_cons, h] using ihr
      | some fe =>
          rw [List.filterMap_cons, h]
          simp only [List.map_cons, List.nodup_cons]
          refine ⟨?_, ihr⟩
          intro hmem
          obtain ⟨fe', hfe', heq⟩ := List.mem_map.mp hmem
          obtain ⟨w', hw', hfe'w⟩ := List.mem_filterMap.mp hfe'
          obtain ⟨_, _, h3⟩ := entryOfWalk_eq_some.mp h
          obtain ⟨_, _, h3'⟩ := entryOfWalk_eq_some.mp hfe'w
          have htgt1 : fe.target = tgt ++ w.1.drop src.length := by rw [h3]
          have htgt2 : fe'.target = tgt ++ w'.1.drop src.length := by rw [h3']
          have hdrop : w.1.drop src.length = w'.1.drop src.length := by
            have := heq
            rw [htgt1, htgt2] at this
            exact List.append_cancel_left this.symm
          have hw1 : w.1 = w'.1 := by
            have e1 := append_drop_of_startsWith (hall w (by simp))
            have e2 := append_drop_of_startsWith (hall' w' hw')
            rw [← e1, ← e2, hdrop]
          exact hwalk'.2 (hw1 ▸ List.mem_map_of_mem Prod.fst hw')

theorem enumerated_length (fs : FS) (src tgt : List String)
    (hroot : ∀ w ∈ walkFrom fs src, w.1 = src → w.2 = Node.dir) :
    (enumerated fs src tgt).length =
      ((walkFrom fs src).filter (fun w => isFileNode w.2)).length +
      ((walkFrom fs src).filter (fun w => isSymlinkNode w.2)).length := by
  unfold enumerated
  revert hroot
  induction walkFrom fs src with
  | nil => intro _; rfl
  | cons w rest ih =>
      intro hroot
      have ihr := ih (fun w' hw' => hroot w' (by simp [hw']))
      by_cases h1 : w.1 = src
      · have hdir : w.2 = Node.dir := hroot w (by simp) h1
        have hnone : entryOfWalk src tgt w = none := by
          unfold entryOfWalk
          rw [if_pos h1]
        simp [List.filterMap_cons, hnone, List.filter_cons, hdir, isFileNode,
          isSymlinkNode, ihr]
      · cases hn : w.2 with
        | dir =>
            have hnone : entryOfWalk src tgt w = none := by
              unfold entryOfWalk
              rw [if_neg h1, hn]
            simp [List.filterMap_cons, hnone, List.filter_cons, hn, isFileNode,
              isSymlinkNode, ihr]
        | file c =>
            have hsome : entryOfWalk src tgt w =
                some ⟨w.1, tgt ++ w.1.drop src.length, isSymlinkNode w.2⟩ := by
              rw [entryOfWalk_eq_some]
              exact ⟨h1, by rw [hn]; rfl, rfl⟩
            simp [List.filterMap_cons, hsome, List.filter_cons, hn, isFileNode,
              isSymlinkNode, ihr]
            omega
        | symlink lt =>
            have hsome : entryOfWalk src tgt w =
                some ⟨w.1, tgt ++ w.1.drop src.length, isSymlinkNode w.2⟩ := by
              rw [entryOfWalk_eq_some]
              exact ⟨h1, by rw [hn]; rfl, rfl⟩
            simp [List.filterMap_cons, hsome, List.filter_cons, hn, isFileNode,
              isSymlinkNode, ihr]
            omega

theorem count_loop_map_ok (ws : List (List String × Node)) :
    count_loop (ws.map .ok) = (ws.filter (fun w => isFileNode w.2)).length := by
  unfold count_loop
  have h : (ws.map (Except.ok (ε := String))).filterMap (fun x =>
      match x with
      | .ok w => some w
      | .error _ => none) = ws := by
    induction ws with
    | nil => rfl
    | cons w rest ih => simpa [List.filterMap_cons] using ih
  rw [h]

theorem count_files_dir (fs : FS) (src : List String)
    (h : lookupFS fs src = some .dir) :
    count_files fs src =
      ((walkFrom fs src).filter (fun w => isFileNode w.2)).length := by
  unfold count_files
  rw [count_loop_map_ok]
  have he : path_exists fs src = true := (path_exists_iff fs src).mpr ⟨_, h⟩
  have hs : is_symlink fs src = false := by
    cases hx : is_symlink fs src
    · rfl
    · obtain ⟨lt, hlt⟩ := (is_symlink_iff fs src).mp hx
      rw [h] at hlt
      cases hlt
  have hf : is_file fs src = false := by
    cases hx : is_file fs src
    · rfl
    · obtain ⟨c, hc⟩ := (is_file_iff fs src).mp hx
      rw [h] at hc
      cases hc
  have hd : is_dir fs src = true := (is_dir_iff fs src).mpr h
  rw [he, hs, hf, hd]
  rfl

theorem lookup_none_of_clean {fs : FS} {tgt x : List String}
    (hclean : ∀ e ∈ fs, startsWithComps tgt e.1 = false)
    (hx : startsWithComps tgt x = true) : lookupFS fs x = none := by
  cases h : lookupFS fs x with
  | none => rfl
  | some n =>
      have hm := mem_of_lookup h
      have := hclean (x, n) hm
      rw [hx] at this
      cases this

theorem dropLast_append_of_ne_nil (a : List String) {b : List String}
    (hb : b ≠ []) : (a ++ b).dropLast = a ++ b.dropLast := by
  rcases List.eq_nil_or_concat b with rfl | ⟨b', x, rfl⟩
  · exact absurd rfl hb
  · rw [List.concat_eq_append, ← List.append_assoc, List.dropLast_concat,
      List.dropLast_concat]

theorem enumerated_target_decomp {fs : FS} {src tgt : List String}
    {fe : FileEntry} (h : fe ∈ enumerated fs src tgt) :
    ∃ r', fe.target.dropLast = tgt ++ r' ∧
      startsWithComps (tgt ++ r') fe.target = true ∧
      startsWithComps r' (fe.source.drop src.length) = true ∧
      r'.length < (fe.source.drop src.length).length := by
  obtain ⟨n, hmem, hsw, hne, hnd, hsym, htgt⟩ := mem_enumerated.mp h
  have hrel : fe.source.drop src.length ≠ [] := enumerated_rel_ne_nil h
  rcases List.eq_nil_or_concat (fe.source.drop src.length) with hnil | ⟨r', x, hcat⟩
  · exact absurd hnil hrel
  · rw [List.concat_eq_append] at hcat
    refine ⟨r', ?_, ?_, ?_, ?_⟩
    · rw [htgt, hcat, ← List.append_assoc, List.dropLast_concat]
    · rw [htgt, hcat, ← List.append_assoc]
      exact startsWithComps_append _ _
    · rw [hcat]
      exact startsWithComps_append _ _
    · rw [hcat]
      simp

theorem enumerated_target_under {fs : FS} {src tgt : List String}
    {fe : FileEntry} (h : fe ∈ enumerated fs src tgt) :
    startsWithComps tgt fe.target = true ∧ fe.target ≠ tgt := by
  obtain ⟨n, hmem, hsw, hne, hnd, hsym, htgt⟩ := mem_enumerated.mp h
  have hrel : fe.source.drop src.length ≠ [] := enumerated_rel_ne_nil h
  constructor
  · rw [htgt]
    exact startsWithComps_append _ _
  · rw [htgt]
    intro hh
    have hlen := congrArg List.length hh
    rw [List.length_append] at hlen
    have : (List.drop src.length fe.source).length = 0 := by omega
    exact hrel (List.length_eq_zero.mp this)

theorem copy_directory_created (fs : FS) (src tgt : List String)
    (hnd : (keysFS fs).Nodup)
    (hwf : ∀ e ∈ fs, ∀ e' ∈ fs, strictUnder e.1 e'.1 = true → e.2 = Node.dir)
    (hsrc : lookupFS fs src ≠ none)
    (hclean : ∀ e ∈ fs, startsWithComps tgt e.1 = false)
    (hanc : dirOkOn fs (pathPrefixesOf tgt))
    (htne : tgt ≠ []) :
    ∃ fs', copy_directory fs src tgt =
        .ok (fs', .created (enumerated fs src tgt).length) ∧
      (∀ e ∈ enumerated fs src tgt, lookupFS fs' e.target = lookupFS fs e.source) ∧
      lookupFS fs' tgt = some Node.dir ∧
      (∀ x, lookupFS fs x ≠ none → lookupFS fs' x = lookupFS fs x) ∧
      (∀ x, lookupFS fs' x ≠ lookupFS fs x →
        (∃ e ∈ enumerated fs src tgt, x = e.target) ∨
        (lookupFS fs' x = some Node.dir ∧ lookupFS fs x = none ∧
          (startsWithComps x tgt = true ∨
           ∃ e ∈ enumerated fs src tgt,
             startsWithComps x e.target.dropLast = true))) := by
  have htabs : lookupFS fs tgt = none :=
    lookup_none_of_clean hclean (startsWithComps_refl tgt)
  have hexists : path_exists fs src = true := by
    rw [path_exists_iff]
    cases h : lookupFS fs src with
    | none => exact absurd h hsrc
    | some n => exact ⟨n, rfl⟩
  have htabs' : path_exists fs tgt = false := (path_exists_false_iff fs tgt).mpr htabs
  have hcd : copy_directory fs src tgt =
      (if (enumerated fs src tgt).length = 0 then do
        let fs1 ← mkdirAll fs tgt
        Except.ok (fs1, CopyResult.created 0)
      else do
        let fs1 ← mkdir_each fs
          ((enumerated fs src tgt).map (fun e => e.target.dropLast))
        let fs2 ← copy_each fs1 (enumerated fs src tgt)
        Except.ok (fs2, CopyResult.created (enumerated fs src tgt).length)) := by
    unfold copy_directory
    rw [hexists, htabs', enumerate_directory_eq]
    rfl
  by_cases hE : (enumerated fs src tgt).length = 0
  · -- Empty enumeration: create the empty target directory.
    have hEnil : enumerated fs src tgt = [] := List.length_eq_zero.mp hE
    obtain ⟨fs1, hok1, hchar1⟩ := mkdirAll_spec fs tgt hanc
    refine ⟨fs1, ?_, ?_, ?_, ?_, ?_⟩
    · rw [hcd, if_pos hE, hok1, hE]
      rfl
    · intro e he
      rw [hEnil] at he
      cases he
    · rw [hchar1 tgt, if_pos ⟨(mem_pathPrefixesOf tgt tgt).mpr
        ⟨htne, startsWithComps_refl tgt⟩, htabs⟩]
    · intro x hx
      rw [hchar1 x, if_neg (fun hh => hx hh.2)]
    · intro x hx
      rw [hchar1 x] at hx ⊢
      by_cases hc : x ∈ pathPrefixesOf tgt ∧ lookupFS fs x = none
      · rw [if_pos hc]
        exact Or.inr ⟨rfl, hc.2,
          Or.inl ((mem_pathPrefixesOf x tgt).mp hc.1).2⟩
      · rw [if_neg hc] at hx
        exact absurd rfl hx
  · -- Nonempty enumeration: pre-create parents, then copy every entry.
    obtain ⟨e0, he0⟩ := List.exists_mem_of_ne_nil (enumerated fs src tgt)
      (fun hh => hE (by rw [hh]; rfl))
    -- Targets of entries are absent from the original filesystem.
    have htgt_none : ∀ e ∈ enumerated fs src tgt, lookupFS fs e.target = none := by
      intro e he
      exact lookup_none_of_clean hclean (enumerated_target_under he).1
    -- Entry sources resolve to their recorded nodes.
    have hsrcof : ∀ e ∈ enumerated fs src tgt, ∃ n,
        lookupFS fs e.source = some n ∧ isDirNode n = false ∧
        e.isSymlink = isSymlinkNode n := by
      intro e he
      obtain ⟨n, hmem, _, _, hndn, hsym, _⟩ := mem_enumerated.mp he
      exact ⟨n, lookup_of_mem_nodup hnd hmem, hndn, hsym⟩
    -- No entry target is a prefix of another entry's parent directory.
    have hnot_prefix : ∀ e ∈ enumerated fs src tgt,
        ∀ e' ∈ enumerated fs src tgt,
          e.target ∉ pathPrefixesOf e'.target.dropLast := by
      intro e he e' he' hmem
      obtain ⟨r', hdl, _, hr'rel, hr'len⟩ := enumerated_target_decomp he'
      obtain ⟨hne0, hswm⟩ := (mem_pathPrefixesOf _ _).mp hmem
      rw [hdl] at hswm
      obtain ⟨ne, hmeme, hswe, hnee, hnde, _, htgte⟩ := mem_enumerated.mp he
      obtain ⟨ne', hmeme', hswe', _, _, _, htgte'⟩ := mem_enumerated.mp he'
      rw [htgte] at hswm
      have hrel_pref : startsWithComps (e.source.drop src.length) r' = true := by
        have := hswm
        rwa [startsWith_cancel] at this
      have hrel_pref2 :
          startsWithComps (e.source.drop src.length)
            (e'.source.drop src.length) = true :=
        startsWith_trans hrel_pref hr'rel
      have hsrc_pref : startsWithComps e.source e'.source = true := by
        have h1 := append_drop_of_startsWith hswe
        have h2 := append_drop_of_startsWith hswe'
        rw [← h1, ← h2]
        rw [startsWith_cancel]
        exact hrel_pref2
      have hlen : e.source.length < e'.source.length := by
        have l1 := length_le_of_startsWith hrel_pref
        have l2 := congrArg List.length (append_drop_of_startsWith hswe)
        have l3 := congrArg List.length (append_drop_of_startsWith hswe')
        rw [List.length_append] at l2 l3
        omega
      have hstrict : strictUnder e.source e'.source = true := by
        unfold strictUnder
        rw [if_neg, hsrc_pref]
        intro hh
        rw [hh] at hlen
        omega
      have hdir : ne = Node.dir :=
        hwf (e.source, ne) hmeme (e'.source, ne') hmeme' hstrict
      rw [hdir] at hnde
      cases hnde
    -- The parent-directory chains satisfy the mkdir precondition.
    have hPok : dirOkOn fs
        (((enumerated fs src tgt).map (fun e => e.target.dropLast)).flatMap
          pathPrefixesOf) := by
      intro q hq
      obtain ⟨d, hd, hqd⟩ := List.mem_flatMap.mp hq
      obtain ⟨e, he, hde⟩ := List.mem_map.mp hd
      obtain ⟨r', hdl, _, _, _⟩ := enumerated_target_decomp he
      obtain ⟨hqne, hqsw⟩ := (mem_pathPrefixesOf _ _).mp hqd
      rw [← hde, hdl] at hqsw
      rcases startsWith_of_prefix_append hqsw with hq1 | hq1
      · exact hanc q ((mem_pathPrefixesOf q tgt).mpr ⟨hqne, hq1⟩)
      · exact Or.inl (lookup_none_of_clean hclean hq1)
    obtain ⟨fs1, hok1, hchar1⟩ := mkdir_each_spec _ fs hPok
    -- The copy batch preconditions at the post-mkdir filesystem.
    have htgt_none1 : ∀ e ∈ enumerated fs src tgt,
        lookupFS fs1 e.target = none := by
      intro e he
      rw [hchar1 e.target]
      rw [if_neg, htgt_none e he]
      rintro ⟨hmem, -⟩
      obtain ⟨d, hd, hqd⟩ := List.mem_flatMap.mp hmem
      obtain ⟨e', he', hde⟩ := List.mem_map.mp hd
      rw [← hde] at hqd
      exact hnot_prefix e he e' he' hqd
    have hsrc1 : ∀ e ∈ enumerated fs src tgt,
        lookupFS fs1 e.source = lookupFS fs e.source := by
      intro e he
      obtain ⟨n, hn, -, -⟩ := hsrcof e he
      rw [hchar1 e.source, if_neg]
      rintro ⟨-, hnone⟩
      rw [hn] at hnone
      cases hnone
    have hsrcE : ∀ e ∈ enumerated fs src tgt,
        (e.isSymlink = true → ∃ lt, lookupFS fs1 e.source = some (.symlink lt)) ∧
        (e.isSymlink = false → ∃ c, lookupFS fs1 e.source = some (.file c)) := by
      intro e he
      obtain ⟨n, hn, hndn, hsym⟩ := hsrcof e he
      rw [hsrc1 e he, hn]
      constructor
      · intro hs
        rw [hs] at hsym
        cases n with
        | symlink lt => exact ⟨lt, rfl⟩
        | file c => cases hsym
        | dir => cases hsym
      · intro hs
        rw [hs] at hsym
        cases n with
        | file c => exact ⟨c, rfl⟩
        | symlink lt => cases hsym
        | dir => cases hndn
    have htgtE : ∀ e ∈ enumerated fs src tgt,
        lookupFS fs1 e.target ≠ some Node.dir := by
      intro e he
      rw [htgt_none1 e he]
      intro hh
      cases hh
    have htsE : ∀ e ∈ enumerated fs src tgt,
        ∀ e' ∈ enumerated fs src tgt, e.target ≠ e'.source := by
      intro e he e' he' hh
      obtain ⟨n, hn, -, -⟩ := hsrcof e' he'
      have := lookup_none_of_clean hclean (hh ▸ (enumerated_target_under he).1)
      rw [this] at hn
      cases hn
    have hnodupE := enumerated_targets_nodup fs src tgt hnd
    obtain ⟨fs2, hok2, hunch2, hcopied2⟩ :=
      copy_each_spec _ fs1 hsrcE htgtE htsE hnodupE
    have htgt_dir1 : lookupFS fs1 tgt = some Node.dir := by
      rw [hchar1 tgt, if_pos]
      obtain ⟨r', hdl, -, -, -⟩ := enumerated_target_decomp he0
      refine ⟨List.mem_flatMap.mpr ⟨e0.target.dropLast,
        List.mem_map_of_mem _ he0, ?_⟩, htabs⟩
      rw [hdl]
      exact (mem_pathPrefixesOf tgt (tgt ++ r')).mpr
        ⟨htne, startsWithComps_append tgt r'⟩
    have htgt_not_target : tgt ∉ (enumerated fs src tgt).map FileEntry.target := by
      intro hh
      obtain ⟨e, he, heq⟩ := List.mem_map.mp hh
      exact (enumerated_target_under he).2 heq
    refine ⟨fs2, ?_, ?_, ?_, ?_, ?_⟩
    · rw [hcd, if_neg hE]
      show (do
          let fs1 ← mkdir_each fs
            ((enumerated fs src tgt).map (fun e : FileEntry => e.target.dropLast))
          let fs2 ← copy_each fs1 (enumerated fs src tgt)
          Except.ok (fs2, CopyResult.created (enumerated fs src tgt).length)) = _
      rw [hok1]
      show (do
          let fs2 ← copy_each fs1 (enumerated fs src tgt)
          Except.ok (fs2, CopyResult.created (enumerated fs src tgt).length)) = _
      rw [hok2]
      rfl
    · intro e he
      rw [hcopied2 e he, hsrc1 e he]
    · rw [hunch2 tgt htgt_not_target, htgt_dir1]
    · intro x hx
      have hx_not_target : x ∉ (enumerated fs src tgt).map FileEntry.target := by
        intro hh
        obtain ⟨e, he, heq⟩ := List.mem_map.mp hh
        exact hx (heq ▸ htgt_none e he)
      rw [hunch2 x hx_not_target, hchar1 x, if_neg (fun hh => hx hh.2)]
    · intro x hx
      by_cases hxt : x ∈ (enumerated fs src tgt).map FileEntry.target
      · obtain ⟨e, he, heq⟩ := List.mem_map.mp hxt
        exact Or.inl ⟨e, he, heq.symm⟩
      · rw [hunch2 x hxt, hchar1 x] at hx
        by_cases hc : x ∈ ((enumerated fs src tgt).map
            (fun e => e.target.dropLast)).flatMap pathPrefixesOf ∧
            lookupFS fs x = none
        · rw [hunch2 x hxt, hchar1 x, if_pos hc]
          obtain ⟨d, hd, hqd⟩ := List.mem_flatMap.mp hc.1
          obtain ⟨e, he, hde⟩ := List.mem_map.mp hd
          rw [← hde] at hqd
          exact Or.inr ⟨rfl, hc.2, Or.inr ⟨e, he,
            ((mem_pathPrefixesOf _ _).mp hqd).2⟩⟩
        · rw [if_neg hc] at hx
          exact absurd rfl hx

/-! ## Claim theorems -/

/-- C5: for every base directory, config-relative directory, and raw
path, a raw path beginning with a path separator is stripped of the
separator and the remainder joined directly onto the base, with the
stripped remainder as display label; otherwise the display label is the
join of the config-relative directory and the raw path, and the absolute
path is the base joined with that label.  The concrete examples from the
specification are included.  The function is pure by construction (no
I/O, total, no error value). -/
theorem C5_resolve_path :
    (∀ (base cfgRel : RPath) (s stripped : String),
        stripLeadSlash s = some stripped →
        resolve_path base cfgRel s = (base.join (parseRPath stripped), stripped)) ∧
    (∀ (base cfgRel : RPath) (s : String),
        stripLeadSlash s = none →
        resolve_path base cfgRel s =
          (base.join (cfgRel.join (parseRPath s)),
           renderRPath (cfgRel.join (parseRPath s)))) ∧
    resolve_path ⟨true, ["repo"]⟩ ⟨false, ["apps", "x"]⟩ "local.txt" =
      (⟨true, ["repo", "apps", "x", "local.txt"]⟩, "apps/x/local.txt") ∧
    resolve_path ⟨true, ["repo"]⟩ ⟨false, ["apps", "x"]⟩ "/.env" =
      (⟨true, ["repo", ".env"]⟩, ".env") := by
  refine ⟨?_, ?_, by rfl, by rfl⟩
  · intro base cfgRel s stripped h
    unfold resolve_path
    rw [h]
  · intro base cfgRel s h
    unfold resolve_path
    rw [h]

/-- Witness for C5 at the specification's concrete inputs. -/
theorem C5_resolve_path_witness :
    resolve_path ⟨true, ["repo"]⟩ ⟨false, ["apps", "x"]⟩ "/.env" =
      (RPath.join ⟨true, ["repo"]⟩ (parseRPath ".env"), ".env") :=
  C5_resolve_path.1 ⟨true, ["repo"]⟩ ⟨false, ["apps", "x"]⟩ "/.env" ".env"
    (by decide)

/-- C8: `apply_config` resolves each declared path by sequentially
joining the worktree root, the config-relative directory, and the raw
path; for a raw path beginning with a path separator, `Path::join`
replaces the accumulated path, so both source and target resolve to the
literal absolute path itself — unlike `resolve_path`, which joins the
stripped remainder onto the worktree root. -/
theorem C8_apply_config_absolute :
    (∀ (mainW targetW cfgRel : RPath) (raw : String),
        (parseRPath raw).isAbs = true →
        apply_config_resolve mainW cfgRel raw = parseRPath raw ∧
        apply_config_resolve targetW cfgRel raw = parseRPath raw) ∧
    (∀ (base cfgRel : RPath) (raw stripped : String),
        stripLeadSlash raw = some stripped →
        (resolve_path base cfgRel raw).1 = base.join (parseRPath stripped)) ∧
    apply_config_resolve ⟨true, ["repo"]⟩ ⟨false, ["apps", "x"]⟩ "/.env" =
      ⟨true, [".env"]⟩ ∧
    (resolve_path ⟨true, ["repo"]⟩ ⟨false, ["apps", "x"]⟩ "/.env").1 =
      ⟨true, ["repo", ".env"]⟩ ∧
    apply_config_resolve ⟨true, ["repo"]⟩ ⟨false, ["apps", "x"]⟩ "/.env" ≠
      (resolve_path ⟨true, ["repo"]⟩ ⟨false, ["apps", "x"]⟩ "/.env").1 := by
  refine ⟨?_, ?_, by rfl, by rfl, by decide⟩
  · intro mainW targetW cfgRel raw h
    unfold apply_config_resolve RPath.join
    rw [h]
    exact ⟨by simp, by simp⟩
  · intro base cfgRel raw stripped h
    unfold resolve_path
    rw [h]

/-- Witness for C8 at a concrete rooted path. -/
theorem C8_apply_config_absolute_witness :
    apply_config_resolve ⟨true, ["repo"]⟩ ⟨false, ["apps", "x"]⟩ "/.env" =
      parseRPath "/.env" ∧
    apply_config_resolve ⟨true, ["other"]⟩ ⟨false, ["apps", "x"]⟩ "/.env" =
      parseRPath "/.env" :=
  C8_apply_config_absolute.1 ⟨true, ["repo"]⟩ ⟨true, ["other"]⟩
    ⟨false, ["apps", "x"]⟩ "/.env" (by decide)

theorem count_loop_append (a b : List (Except String (List String × Node))) :
    count_loop (a ++ b) = count_loop a + count_loop b := by
  unfold count_loop
  rw [List.filterMap_append, List.filter_append, List.length_append]

theorem count_loop_error_cons (msg : String)
    (l : List (Except String (List String × Node))) :
    count_loop (.error msg :: l) = count_loop l := by
  unfold count_loop
  rw [List.filterMap_cons]

/-- C10: the counting loop is total and silently drops erroring walk
entries (`filter_map(Result::ok)`), so `count_files` always returns a
count; the enumeration loop of `copy_directory` instead propagates the
first traversal error as a hard failure. -/
theorem C10_count_total_enumerate_propagates :
    (∀ (l1 l2 : List (Except String (List String × Node))) (msg : String),
        count_loop (l1 ++ Except.error msg :: l2) = count_loop (l1 ++ l2)) ∧
    (∀ (src tgt : List String)
        (l1 l2 : List (Except String (List String × Node))) (msg : String),
        (∀ m, Except.error m ∉ l1) →
        enumerate_loop src tgt (l1 ++ Except.error msg :: l2) =
          Except.error msg) ∧
    (∀ fs p, ∃ k, count_files fs p = k) := by
  refine ⟨?_, ?_, fun fs p => ⟨count_files fs p, rfl⟩⟩
  · intro l1 l2 msg
    rw [count_loop_append, count_loop_append, count_loop_error_cons]
  · intro src tgt l1 l2 msg hok
    induction l1 with
    | nil => rfl
    | cons x rest ih =>
        cases x with
        | error m => exact absurd (by simp) (hok m)
        | ok w =>
            have hok' : ∀ m, Except.error m ∉ rest := by
              intro m hm
              exact hok m (by simp [hm])
            show (do
                let tail ← enumerate_loop src tgt (rest ++ Except.error msg :: l2)
                match entryOfWalk src tgt w with
                | none => Except.ok tail
                | some fe => Except.ok (fe :: tail)) = _
            rw [ih hok']
            rfl

/-- Witness for C10 on a concrete stream with one error entry. -/
theorem C10_count_total_enumerate_propagates_witness :
    count_loop [.ok (["a"], Node.file "A"), .error "boom",
      .ok (["b"], Node.file "B")] =
      count_loop [.ok (["a"], Node.file "A"), .ok (["b"], Node.file "B")] ∧
    enumerate_loop ["s"] ["t"] [.ok (["s", "a"], Node.file "A"),
      .error "boom"] = .error "boom" := by
  constructor
  · exact C10_count_total_enumerate_propagates.1
      [.ok (["a"], Node.file "A")] [.ok (["b"], Node.file "B")] "boom"
  · exact C10_count_total_enumerate_propagates.2.1 ["s"] ["t"]
      [.ok (["s", "a"], Node.file "A")] [] "boom"
      (by intro m hm; simp at hm)

/-- C3 counterexample: a copy declaration whose resolved target exists
but whose resolved source is absent is skipped with reason "not found",
not "exists" — the source-absence check takes precedence over the
target-exists check. -/
theorem C3_counterexample :
    path_exists [((["t", "cfg.json"] : List String), Node.file "x")]
      (resolve_comps ["t"] [] ⟨false, ["cfg.json"]⟩).1 = true ∧
    path_exists [((["t", "cfg.json"] : List String), Node.file "x")]
      (resolve_comps ["m"] [] ⟨false, ["cfg.json"]⟩).1 = false ∧
    (plan_copy [((["t", "cfg.json"] : List String), Node.file "x")]
      ["m"] ["t"] [] ⟨false, ["cfg.json"]⟩).will_skip = true ∧
    (plan_copy [((["t", "cfg.json"] : List String), Node.file "x")]
      ["m"] ["t"] [] ⟨false, ["cfg.json"]⟩).skip_reason = some "not found" ∧
    (some "not found" : Option String) ≠ some "exists" := by
  refine ⟨by decide, by decide, by rfl, by rfl, by decide⟩

/-- C3 (amended): a copy declaration with an absent resolved source is
skipped with reason "not found" (this check takes precedence); a copy
declaration whose resolved source exists and whose resolved target
exists is skipped with reason "exists"; an overwrite declaration is
skipped (reason "not found") exactly when its source is absent — an
existing target never skips an overwrite.  The planned copy/overwrite
operations are members of the `plan_operations` output. -/
theorem C3_skip_reasons :
    (∀ (fs : FS) (mainW targetW cfgRel : List String) (p : RawPath),
      (path_exists fs (resolve_comps mainW cfgRel p).1 = false →
        (plan_copy fs mainW targetW cfgRel p).will_skip = true ∧
        (plan_copy fs mainW targetW cfgRel p).skip_reason = some "not found") ∧
      (path_exists fs (resolve_comps mainW cfgRel p).1 = true →
       path_exists fs (resolve_comps targetW cfgRel p).1 = true →
        (plan_copy fs mainW targetW cfgRel p).will_skip = true ∧
        (plan_copy fs mainW targetW cfgRel p).skip_reason = some "exists") ∧
      (path_exists fs (resolve_comps mainW cfgRel p).1 = false →
        (plan_overwrite fs mainW targetW cfgRel p).will_skip = true ∧
        (plan_overwrite fs mainW targetW cfgRel p).skip_reason =
          some "not found") ∧
      (path_exists fs (resolve_comps mainW cfgRel p).1 = true →
        (plan_overwrite fs mainW targetW cfgRel p).will_skip = false ∧
        (plan_overwrite fs mainW targetW cfgRel p).skip_reason = none)) ∧
    (∀ (fs : FS) (mainW targetW cfgRel : List String)
        (gm : GlobPat → List (List String)) (cfg : Config) (p : RawPath),
      p ∈ cfg.copy →
        plan_copy fs mainW targetW cfgRel p ∈
          plan_operations fs mainW targetW cfgRel gm cfg) ∧
    (∀ (fs : FS) (mainW targetW cfgRel : List String)
        (gm : GlobPat → List (List String)) (cfg : Config) (p : RawPath),
      p ∈ cfg.overwrite →
        plan_overwrite fs mainW targetW cfgRel p ∈
          plan_operations fs mainW targetW cfgRel gm cfg) := by
  refine ⟨?_, ?_, ?_⟩
  · intro fs mainW targetW cfgRel p
    refine ⟨?_, ?_, ?_, ?_⟩
    · intro h
      constructor <;> simp [plan_copy, h]
    · intro h1 h2
      constructor <;> simp [plan_copy, h1, h2]
    · intro h
      constructor <;> simp [plan_overwrite, h]
    · intro h
      constructor <;> simp [plan_overwrite, h]
  · intro fs mainW targetW cfgRel gm cfg p hp
    unfold plan_operations
    simp only [List.mem_append]
    exact Or.inl (Or.inl (Or.inl (Or.inr (List.mem_map_of_mem _ hp))))
  · intro fs mainW targetW cfgRel gm cfg p hp
    unfold plan_operations
    simp only [List.mem_append]
    exact Or.inl (Or.inl (Or.inr (List.mem_map_of_mem _ hp)))

/-- Witness for C3 at concrete plans: absent source skips "not found",
present source with present target skips "exists", overwrite with
present source and present target does not skip. -/
theorem C3_skip_reasons_witness :
    ((plan_copy [((["m", "a"] : List String), Node.file "x"),
        ((["t", "a"] : List String), Node.file "y")]
        ["m"] ["t"] [] ⟨false, ["a"]⟩).will_skip = true ∧
      (plan_copy [((["m", "a"] : List String), Node.file "x"),
        ((["t", "a"] : List String), Node.file "y")]
        ["m"] ["t"] [] ⟨false, ["a"]⟩).skip_reason = some "exists") ∧
    ((plan_overwrite [((["m", "a"] : List String), Node.file "x"),
        ((["t", "a"] : List String), Node.file "y")]
        ["m"] ["t"] [] ⟨false, ["a"]⟩).will_skip = false ∧
      (plan_overwrite [((["m", "a"] : List String), Node.file "x"),
        ((["t", "a"] : List String), Node.file "y")]
        ["m"] ["t"] [] ⟨false, ["a"]⟩).skip_reason = none) := by
  constructor
  · exact (C3_skip_reasons.1 [((["m", "a"] : List String), Node.file "x"),
      ((["t", "a"] : List String), Node.file "y")] ["m"] ["t"] []
      ⟨false, ["a"]⟩).2.1 (by decide) (by decide)
  · exact (C3_skip_reasons.1 [((["m", "a"] : List String), Node.file "x"),
      ((["t", "a"] : List String), Node.file "y")] ["m"] ["t"] []
      ⟨false, ["a"]⟩).2.2.2 (by decide)

theorem not_mem_own_parent_prefixes (t : List String) :
    t ∉ pathPrefixesOf t.dropLast := by
  intro h
  obtain ⟨hne, hsw⟩ := (mem_pathPrefixesOf _ _).mp h
  have hlen := length_le_of_startsWith hsw
  rw [List.length_dropLast] at hlen
  cases t with
  | nil => exact hne rfl
  | cons a as => simp at hlen

/-- C4: for every existing regular-file source and every target that is
absent or a regular file with arbitrary prior content (and whose
ancestor chain is creatable), the transfer-engine `overwrite_file`
leaves the target's content identical to the source's and returns
`created 1` regardless of the target's prior state; the operations-layer
wrapper classifies the outcome as Overwritten exactly when the target
existed beforehand and as Created when it did not. -/
theorem C4_overwrite_always_wins (fs : FS) (s t : List String) (c : String)
    (hs : lookupFS fs s = some (Node.file c))
    (ht : lookupFS fs t = none ∨ ∃ c0, lookupFS fs t = some (Node.file c0))
    (hanc : dirOkOn fs (pathPrefixesOf t.dropLast)) :
    ∃ fs', overwrite_file fs s t = .ok (fs', .created 1) ∧
      lookupFS fs' t = some (Node.file c) ∧
      overwrite_file_op fs s t = .ok (fs',
        if path_exists fs t then OperationResult.overwritten
        else OperationResult.created) := by
  have hsx : path_exists fs s = true := (path_exists_iff fs s).mpr ⟨_, hs⟩
  obtain ⟨fs1, hok1, hchar1⟩ := mkdirAll_spec fs t.dropLast hanc
  have hs1 : lookupFS fs1 s = some (Node.file c) := by
    rw [hchar1 s, if_neg]
    · exact hs
    · rintro ⟨-, hnone⟩
      rw [hs] at hnone
      cases hnone
  have ht1 : lookupFS fs1 t = lookupFS fs t := by
    rw [hchar1 t, if_neg]
    rintro ⟨hmem, -⟩
    exact not_mem_own_parent_prefixes t hmem
  have hnd1 : is_dir fs1 t = false := by
    cases h : is_dir fs1 t
    · rfl
    · have := (is_dir_iff fs1 t).mp h
      rw [ht1] at this
      rcases ht with ht | ⟨c0, ht⟩
      · rw [ht] at this; cases this
      · rw [ht] at this; cases this
  have hraw : copy_file_raw fs1 s t = .ok (setNode fs1 t (Node.file c)) := by
    unfold copy_file_raw
    rw [hs1, hnd1]
    rfl
  refine ⟨setNode fs1 t (Node.file c), ?_, ?_, ?_⟩
  · unfold overwrite_file
    rw [hsx]
    show (do
        let fs1 ← mkdirAll fs t.dropLast
        let fs2 ← copy_file_raw fs1 s t
        Except.ok (fs2, CopyResult.created 1)) = _
    rw [hok1]
    show (do
        let fs2 ← copy_file_raw fs1 s t
        Except.ok (fs2, CopyResult.created 1)) = _
    rw [hraw]
    rfl
  · rw [lookup_setNode, if_pos rfl]
  · unfold overwrite_file_op
    rw [hsx]
    show (do
        let existed := path_exists fs t
        let r ← overwrite_file fs s t
        Except.ok (r.1,
          match r.2 with
          | .created _ =>
              if existed then OperationResult.overwritten
              else OperationResult.created
          | .alreadyExists => OperationResult.alreadyExists
          | .sourceNotFound => OperationResult.skipped)) = _
    have hov : overwrite_file fs s t =
        .ok (setNode fs1 t (Node.file c), .created 1) := by
      unfold overwrite_file
      rw [hsx]
      show (do
          let fs1 ← mkdirAll fs t.dropLast
          let fs2 ← copy_file_raw fs1 s t
          Except.ok (fs2, CopyResult.created 1)) = _
      rw [hok1]
      show (do
          let fs2 ← copy_file_raw fs1 s t
          Except.ok (fs2, CopyResult.created 1)) = _
      rw [hraw]
      rfl
    rw [hov]
    rfl

/-- Witness for C4: overwriting an existing target with different
content yields Overwritten and the source's bytes. -/
theorem C4_overwrite_always_wins_witness :
    ∃ fs', overwrite_file
        [((["src"] : List String), Node.file "new"),
         ((["tgt"] : List String), Node.file "old")] ["src"] ["tgt"] =
        .ok (fs', .created 1) ∧
      lookupFS fs' ["tgt"] = some (Node.file "new") ∧
      overwrite_file_op
        [((["src"] : List String), Node.file "new"),
         ((["tgt"] : List String), Node.file "old")] ["src"] ["tgt"] =
        .ok (fs',
          if path_exists
              [((["src"] : List String), Node.file "new"),
               ((["tgt"] : List String), Node.file "old")] ["tgt"]
          then OperationResult.overwritten else OperationResult.created) :=
  C4_overwrite_always_wins
    [((["src"] : List String), Node.file "new"),
     ((["tgt"] : List String), Node.file "old")] ["src"] ["tgt"] "new"
    (by decide) (Or.inr ⟨"old", by decide⟩) (by decide)

/-- C6: `create_symlink` returns Exists when the target is already a
symlink (checked first, regardless of where it points or whether the
source exists); returns Skipped when the source is absent; otherwise it
ensures the target's parent chain exists, removes any non-symlink file
or directory (with its subtree) occupying the target path, creates a
symlink at the target recording the source path passed in, and returns
Created. -/
theorem C6_create_symlink :
    (∀ (fs : FS) (s t : List String),
      is_symlink fs t = true → create_symlink fs s t = .ok (fs, .alreadyExists)) ∧
    (∀ (fs : FS) (s t : List String),
      is_symlink fs t = false → path_exists fs s = false →
      create_symlink fs s t = .ok (fs, .skipped)) ∧
    (∀ (fs : FS) (s t : List String),
      is_symlink fs t = false → path_exists fs s = true →
      dirOkOn fs (pathPrefixesOf t.dropLast) →
      ∃ fs', create_symlink fs s t = .ok (fs', .created) ∧
        lookupFS fs' t = some (Node.symlink (renderPath s)) ∧
        (is_dir fs t = true →
          ∀ q, strictUnder t q = true → lookupFS fs' q = none)) := by
  refine ⟨?_, ?_, ?_⟩
  · intro fs s t h
    unfold create_symlink
    rw [h]
    rfl
  · intro fs s t h1 h2
    unfold create_symlink
    rw [h1, h2]
    rfl
  · intro fs s t h1 h2 hanc
    obtain ⟨fs1, hok1, hchar1⟩ := mkdirAll_spec fs t.dropLast hanc
    have ht1 : lookupFS fs1 t = lookupFS fs t := by
      rw [hchar1 t, if_neg]
      rintro ⟨hmem, -⟩
      exact not_mem_own_parent_prefixes t hmem
    set fs2 := if path_exists fs1 t then
        (if is_dir fs1 t then removeTree fs1 t else removeKey fs1 t)
      else fs1 with hfs2
    refine ⟨setNode fs2 t (Node.symlink (renderPath s)), ?_, ?_, ?_⟩
    · unfold create_symlink
      rw [h1, h2]
      show (do
          let fs1 ← mkdirAll fs t.dropLast
          let fs2 :=
            if path_exists fs1 t then
              if is_dir fs1 t then removeTree fs1 t else removeKey fs1 t
            else fs1
          Except.ok (setNode fs2 t (Node.symlink (renderPath s)),
            OperationResult.created)) = _
      rw [hok1]
      rfl
    · rw [lookup_setNode, if_pos rfl]
    · intro hdir q hq
      have hqt : t ≠ q := by
        unfold strictUnder at hq
        by_cases hh : t = q
        · rw [if_pos hh] at hq; cases hq
        · exact hh
      have hsw : startsWithComps t q = true := by
        unfold strictUnder at hq
        rw [if_neg hqt] at hq
        exact hq
      have hdir1 : is_dir fs1 t = true := by
        rw [is_dir_iff, ht1]
        exact (is_dir_iff fs t).mp hdir
      have hex1 : path_exists fs1 t = true := by
        rw [path_exists_iff, ht1]
        exact ⟨_, (is_dir_iff fs t).mp hdir⟩
      rw [lookup_setNode, if_neg hqt, hfs2, if_pos hex1, if_pos hdir1,
        lookup_removeTree, if_pos hsw]

/-- Witness for C6: creating a symlink over an existing directory
target (with content beneath it). -/
theorem C6_create_symlink_witness :
    ∃ fs', create_symlink
        [((["src"] : List String), Node.file "A"),
         ((["t"] : List String), Node.dir),
         ((["t", "old"] : List String), Node.file "B")] ["src"] ["t"] =
        .ok (fs', .created) ∧
      lookupFS fs' ["t"] = some (Node.symlink (renderPath ["src"])) ∧
      (is_dir [((["src"] : List String), Node.file "A"),
         ((["t"] : List String), Node.dir),
         ((["t", "old"] : List String), Node.file "B")] ["t"] = true →
        ∀ q, strictUnder ["t"] q = true → lookupFS fs' q = none) :=
  C6_create_symlink.2.2
    [((["src"] : List String), Node.file "A"),
     ((["t"] : List String), Node.dir),
     ((["t", "old"] : List String), Node.file "B")] ["src"] ["t"]
    (by decide) (by decide) (by decide)

/-- C7: copying twice against the same initially-absent target returns
Created on the first call and Exists on the second, and the second call
leaves the filesystem exactly as the first left it — both for a single
file (`copy_file`) and for a directory tree (`copy_directory`). -/
theorem C7_copy_idempotent :
    (∀ (fs : FS) (s t : List String) (c : String),
      lookupFS fs s = some (Node.file c) →
      lookupFS fs t = none →
      dirOkOn fs (pathPrefixesOf t.dropLast) →
      ∃ fs1, copy_file fs s t = .ok (fs1, .created 1) ∧
        lookupFS fs1 t = some (Node.file c) ∧
        copy_file fs1 s t = .ok (fs1, .alreadyExists)) ∧
    (∀ (fs : FS) (src tgt : List String),
      (keysFS fs).Nodup →
      (∀ e ∈ fs, ∀ e' ∈ fs, strictUnder e.1 e'.1 = true → e.2 = Node.dir) →
      lookupFS fs src ≠ none →
      (∀ e ∈ fs, startsWithComps tgt e.1 = false) →
      dirOkOn fs (pathPrefixesOf tgt) →
      tgt ≠ [] →
      ∃ fs1, copy_directory fs src tgt =
          .ok (fs1, .created (enumerated fs src tgt).length) ∧
        copy_directory fs1 src tgt = .ok (fs1, .alreadyExists)) := by
  constructor
  · intro fs s t c hs ht hanc
    have hsx : path_exists fs s = true := (path_exists_iff fs s).mpr ⟨_, hs⟩
    have htx : path_exists fs t = false := (path_exists_false_iff fs t).mpr ht
    have hst : t ≠ s := by
      intro hh
      rw [hh, hs] at ht
      cases ht
    obtain ⟨fs0, hok0, hchar0⟩ := mkdirAll_spec fs t.dropLast hanc
    have hs0 : lookupFS fs0 s = some (Node.file c) := by
      rw [hchar0 s, if_neg]
      · exact hs
      · rintro ⟨-, hnone⟩
        rw [hs] at hnone
        cases hnone
    have ht0 : lookupFS fs0 t = none := by
      rw [hchar0 t, if_neg]
      · exact ht
      · rintro ⟨hmem, -⟩
        exact not_mem_own_parent_prefixes t hmem
    have hnd0 : is_dir fs0 t = false := by
      cases h : is_dir fs0 t
      · rfl
      · rw [(is_dir_iff fs0 t).mp h] at ht0
        cases ht0
    have hraw : copy_file_raw fs0 s t = .ok (setNode fs0 t (Node.file c)) := by
      unfold copy_file_raw
      rw [hs0, hnd0]
      rfl
    refine ⟨setNode fs0 t (Node.file c), ?_, ?_, ?_⟩
    · unfold copy_file
      rw [hsx, htx]
      show (do
          let fs1 ← mkdirAll fs t.dropLast
          let fs2 ← copy_file_raw fs1 s t
          Except.ok (fs2, CopyResult.created 1)) = _
      rw [hok0]
      show (do
          let fs2 ← copy_file_raw fs0 s t
          Except.ok (fs2, CopyResult.created 1)) = _
      rw [hraw]
      rfl
    · rw [lookup_setNode, if_pos rfl]
    · have hs1 : lookupFS (setNode fs0 t (Node.file c)) s =
          some (Node.file c) := by
        rw [lookup_setNode, if_neg hst, hs0]
      have ht1 : lookupFS (setNode fs0 t (Node.file c)) t =
          some (Node.file c) := by
        rw [lookup_setNode, if_pos rfl]
      unfold copy_file
      rw [(path_exists_iff _ s).mpr ⟨_, hs1⟩, (path_exists_iff _ t).mpr ⟨_, ht1⟩]
      rfl
  · intro fs src tgt hnd hwf hsrc hclean hanc htne
    obtain ⟨fs1, hok, hcopied, htgtdir, hpres, hchg⟩ :=
      copy_directory_created fs src tgt hnd hwf hsrc hclean hanc htne
    refine ⟨fs1, hok, ?_⟩
    have hsrc1 : path_exists fs1 src = true := by
      rw [path_exists_iff]
      cases h : lookupFS fs src with
      | none => exact absurd h hsrc
      | some n =>
          rw [hpres src (by rw [h]; intro hh; cases hh), h]
          exact ⟨n, rfl⟩
    have htgt1 : path_exists fs1 tgt = true :=
      (path_exists_iff fs1 tgt).mpr ⟨_, htgtdir⟩
    unfold copy_directory
    rw [hsrc1, htgt1]
    rfl

/-- Witness for C7 on a concrete file and a concrete directory tree. -/
theorem C7_copy_idempotent_witness :
    (∃ fs1, copy_file [((["s"] : List String), Node.file "A")] ["s"] ["t"] =
        .ok (fs1, .created 1) ∧
      lookupFS fs1 ["t"] = some (Node.file "A") ∧
      copy_file fs1 ["s"] ["t"] = .ok (fs1, .alreadyExists)) ∧
    (∃ fs1, copy_directory
        [((["d"] : List String), Node.dir),
         ((["d", "a"] : List String), Node.file "A")] ["d"] ["t"] =
        .ok (fs1, .created (enumerated
          [((["d"] : List String), Node.dir),
           ((["d", "a"] : List String), Node.file "A")] ["d"] ["t"]).length) ∧
      copy_directory fs1 ["d"] ["t"] = .ok (fs1, .alreadyExists)) := by
  constructor
  · exact C7_copy_idempotent.1 [((["s"] : List String), Node.file "A")]
      ["s"] ["t"] "A" (by decide) (by decide) (by decide)
  · exact C7_copy_idempotent.2
      [((["d"] : List String), Node.dir),
       ((["d", "a"] : List String), Node.file "A")] ["d"] ["t"]
      (by decide) (by decide) (by decide) (by decide) (by decide) (by decide)

/-- C1 counterexample: a source directory with N = 1 plain file and
M = 1 symlink.  The claim states `count` returns N + M = 2, but
`count_files` filters the walk with `is_file` and returns 1 — symlinks
are not counted.  (`copy_directory` on the same tree does copy both
entries, as the amended theorem shows.) -/
theorem C1_counterexample :
    count_files [((["s"] : List String), Node.dir),
      ((["s", "a"] : List String), Node.file "A"),
      ((["s", "l"] : List String), Node.symlink "a")] ["s"] = 1 ∧
    (1 : Nat) ≠ 1 + 1 := ⟨by decide, by decide⟩

/-- C1 (amended): `count` returns 0 for a nonexistent path or a path
that is itself a symlink, 1 for a plain file, and — for a directory
tree with N plain files and M symlinks — returns N (plain files only;
symlinks are not counted, unlike the claim's N + M).  `copy_directory`
onto a fresh target returns Created having copied exactly N + M
entries: every non-directory node of the source tree reappears at the
same relative path under the target with an identical node (identical
content for files, identical recorded link target for symlinks). -/
theorem C1_enumeration_completeness :
    (∀ (fs : FS) (p : List String),
      path_exists fs p = false → count_files fs p = 0) ∧
    (∀ (fs : FS) (p : List String) (lt : String),
      lookupFS fs p = some (Node.symlink lt) → count_files fs p = 0) ∧
    (∀ (fs : FS) (p : List String) (c : String),
      lookupFS fs p = some (Node.file c) → count_files fs p = 1) ∧
    (∀ (fs : FS) (src : List String),
      lookupFS fs src = some Node.dir →
      count_files fs src =
        ((walkFrom fs src).filter (fun w => isFileNode w.2)).length) ∧
    (∀ (fs : FS) (src tgt : List String),
      (keysFS fs).Nodup →
      (∀ e ∈ fs, ∀ e' ∈ fs, strictUnder e.1 e'.1 = true → e.2 = Node.dir) →
      lookupFS fs src = some Node.dir →
      (∀ e ∈ fs, startsWithComps tgt e.1 = false) →
      dirOkOn fs (pathPrefixesOf tgt) →
      tgt ≠ [] →
      ∃ fs', copy_directory fs src tgt = .ok (fs',
          .created (((walkFrom fs src).filter
              (fun w => isFileNode w.2)).length +
            ((walkFrom fs src).filter
              (fun w => isSymlinkNode w.2)).length)) ∧
        (∀ (q : List String) (n : Node), (q, n) ∈ fs →
          strictUnder src q = true → isDirNode n = false →
          lookupFS fs' (tgt ++ q.drop src.length) = some n)) := by
  refine ⟨?_, ?_, ?_, ?_, ?_⟩
  · intro fs p h
    unfold count_files
    rw [h]
    rfl
  · intro fs p lt h
    unfold count_files
    rw [(path_exists_iff fs p).mpr ⟨_, h⟩,
      (is_symlink_iff fs p).mpr ⟨lt, h⟩]
    rfl
  · intro fs p c h
    have hsym : is_symlink fs p = false := by
      cases hx : is_symlink fs p
      · rfl
      · obtain ⟨lt, hlt⟩ := (is_symlink_iff fs p).mp hx
        rw [h] at hlt
        cases hlt
    unfold count_files
    rw [(path_exists_iff fs p).mpr ⟨_, h⟩, hsym,
      (is_file_iff fs p).mpr ⟨c, h⟩]
    rfl
  · intro fs src h
    exact count_files_dir fs src h
  · intro fs src tgt hnd hwf hsrcdir hclean hanc htne
    obtain ⟨fs', hok, hcopied, htgtdir, hpres, hchg⟩ :=
      copy_directory_created fs src tgt hnd hwf
        (by rw [hsrcdir]; intro hh; cases hh) hclean hanc htne
    have hroot : ∀ w ∈ walkFrom fs src, w.1 = src → w.2 = Node.dir := by
      intro w hw hsrc
      have hmem : (w.1, w.2) ∈ fs := by
        have := (mem_walkFrom.mp hw).1
        simpa using this
      have := lookup_of_mem_nodup hnd hmem
      rw [hsrc, hsrcdir] at this
      injection this with hh
      exact hh.symm
    have hlen := enumerated_length fs src tgt hroot
    refine ⟨fs', by rw [hok, hlen], ?_⟩
    intro q n hq hstrict hnotdir
    have hqs : q ≠ src := by
      unfold strictUnder at hstrict
      by_cases hh : src = q
      · rw [if_pos hh] at hstrict; cases hstrict
      · exact fun hh2 => hh hh2.symm
    have hsw : startsWithComps src q = true := by
      unfold strictUnder at hstrict
      rw [if_neg (fun hh => hqs hh.symm)] at hstrict
      exact hstrict
    have hfe : (⟨q, tgt ++ q.drop src.length, isSymlinkNode n⟩ : FileEntry) ∈
        enumerated fs src tgt :=
      mem_enumerated.mpr ⟨n, hq, hsw, hqs, hnotdir, rfl, rfl⟩
    have := hcopied _ hfe
    rw [this]
    exact lookup_of_mem_nodup hnd hq

/-- Witness for C1 on the 1-file, 1-symlink tree: copying creates both
entries with identical nodes. -/
theorem C1_enumeration_completeness_witness :
    ∃ fs', copy_directory [((["s"] : List String), Node.dir),
        ((["s", "a"] : List String), Node.file "A"),
        ((["s", "l"] : List String), Node.symlink "a")] ["s"] ["t"] =
        .ok (fs', .created (1 + 1)) ∧
      (∀ (q : List String) (n : Node),
        (q, n) ∈ [((["s"] : List String), Node.dir),
          ((["s", "a"] : List String), Node.file "A"),
          ((["s", "l"] : List String), Node.symlink "a")] →
        strictUnder ["s"] q = true → isDirNode n = false →
        lookupFS fs' (["t"] ++ q.drop 1) = some n) :=
  C1_enumeration_completeness.2.2.2.2
    [((["s"] : List String), Node.dir),
     ((["s", "a"] : List String), Node.file "A"),
     ((["s", "l"] : List String), Node.symlink "a")] ["s"] ["t"]
    (by decide) (by decide) (by decide) (by decide) (by decide) (by decide)

/-- C9: when `copy_directory` returns Created on a source containing at
least one file or symlink, the only paths that change under the target
are the copied entries themselves and directories lying on the prefix
chains of the target root or of copied entries' parents; every source
subdirectory with no file or symlink anywhere beneath it is absent from
the target after the copy. -/
theorem C9_empty_dirs_not_recreated (fs : FS) (src tgt : List String)
    (hnd : (keysFS fs).Nodup)
    (hwf : ∀ e ∈ fs, ∀ e' ∈ fs, strictUnder e.1 e'.1 = true → e.2 = Node.dir)
    (hsrc : lookupFS fs src ≠ none)
    (hclean : ∀ e ∈ fs, startsWithComps tgt e.1 = false)
    (hanc : dirOkOn fs (pathPrefixesOf tgt))
    (htne : tgt ≠ []) :
    ∃ fs', copy_directory fs src tgt =
        .ok (fs', .created (enumerated fs src tgt).length) ∧
      (∀ x, lookupFS fs' x ≠ lookupFS fs x →
        (∃ e ∈ enumerated fs src tgt, x = e.target) ∨
        (lookupFS fs' x = some Node.dir ∧ lookupFS fs x = none ∧
          (startsWithComps x tgt = true ∨
           ∃ e ∈ enumerated fs src tgt,
             startsWithComps x e.target.dropLast = true))) ∧
      (∀ (d : List String), (d, Node.dir) ∈ fs → strictUnder src d = true →
        (∀ (q : List String) (nq : Node), (q, nq) ∈ fs →
          strictUnder d q = true → nq = Node.dir) →
        lookupFS fs' (tgt ++ d.drop src.length) = none) := by
  obtain ⟨fs', hok, hcopied, htgtdir, hpres, hchg⟩ :=
    copy_directory_created fs src tgt hnd hwf hsrc hclean hanc htne
  refine ⟨fs', hok, hchg, ?_⟩
  intro d hd hstrict hempty
  have hds : d ≠ src := by
    unfold strictUnder at hstrict
    by_cases hh : src = d
    · rw [if_pos hh] at hstrict; cases hstrict
    · exact fun hh2 => hh hh2.symm
  have hsw : startsWithComps src d = true := by
    unfold strictUnder at hstrict
    rw [if_neg (fun hh => hds hh.symm)] at hstrict
    exact hstrict
  have hreld : d.drop src.length ≠ [] := by
    intro hnil
    have e1 := append_drop_of_startsWith hsw
    rw [hnil, List.append_nil] at e1
    exact hds e1.symm
  set x := tgt ++ d.drop src.length with hx
  have hxfs : lookupFS fs x = none :=
    lookup_none_of_clean hclean (startsWithComps_append tgt _)
  by_cases hchanged : lookupFS fs' x = lookupFS fs x
  · rw [hchanged, hxfs]
  · rcases hchg x hchanged with ⟨e, he, hxe⟩ | ⟨-, -, hdisj⟩
    · -- x cannot be an entry target: the entry's source would be d,
      -- which is a directory while entries are non-directories.
      obtain ⟨n, hmem, hswe, -, hnde, -, htgte⟩ := mem_enumerated.mp he
      rw [htgte] at hxe
      have hdrop : d.drop src.length = e.source.drop src.length :=
        List.append_cancel_left (hx ▸ hxe)
      have hde : d = e.source := by
        have e1 := append_drop_of_startsWith hsw
        have e2 := append_drop_of_startsWith hswe
        rw [← e1, ← e2, hdrop]
      have hlook1 := lookup_of_mem_nodup hnd hd
      have hlook2 := lookup_of_mem_nodup hnd hmem
      rw [hde] at hlook1
      rw [hlook1] at hlook2
      injection hlook2 with hh
      rw [← hh] at hnde
      cases hnde
    · rcases hdisj with hpref | ⟨e, he, hpref⟩
      · -- x cannot be a prefix of the target root: it is strictly longer.
        have hlen := length_le_of_startsWith hpref
        rw [hx, List.length_append] at hlen
        have : d.drop src.length = [] := by
          cases hnil : d.drop src.length with
          | nil => rfl
          | cons a as => rw [hnil] at hlen; simp at hlen
        exact absurd this hreld
      · -- x cannot be a prefix of an entry's parent: the entry's source
        -- would lie strictly beneath d, contradicting emptiness.
        obtain ⟨r', hdl, -, hr'rel, hr'len⟩ := enumerated_target_decomp he
        obtain ⟨ne, hmeme, hswe, -, hnde, -, -⟩ := mem_enumerated.mp he
        rw [hdl] at hpref
        have hrel_pref : startsWithComps (d.drop src.length) r' = true := by
          have := hpref
          rw [hx] at this
          rwa [startsWith_cancel] at this
        have hrel_pref2 : startsWithComps (d.drop src.length)
            (e.source.drop src.length) = true :=
          startsWith_trans hrel_pref hr'rel
        have hsrc_pref : startsWithComps d e.source = true := by
          have e1 := append_drop_of_startsWith hsw
          have e2 := append_drop_of_startsWith hswe
          rw [← e1, ← e2, startsWith_cancel]
          exact hrel_pref2
        have hlen : d.length < e.source.length := by
          have l1 := length_le_of_startsWith hrel_pref
          have l2 := congrArg List.length (append_drop_of_startsWith hsw)
          have l3 := congrArg List.length (append_drop_of_startsWith hswe)
          rw [List.length_append] at l2 l3
          omega
        have hstrict2 : strictUnder d e.source = true := by
          unfold strictUnder
          rw [if_neg, hsrc_pref]
          intro hh
          rw [hh] at hlen
          omega
        have := hempty e.source ne hmeme hstrict2
        rw [this] at hnde
        cases hnde

/-- Witness for C9: a source with one file under `sub` and one empty
subdirectory `emptydir`; the latter is absent from the target. -/
theorem C9_empty_dirs_not_recreated_witness :
    ∃ fs', copy_directory
        [((["s"] : List String), Node.dir),
         ((["s", "sub"] : List String), Node.dir),
         ((["s", "sub", "a"] : List String), Node.file "A"),
         ((["s", "emptydir"] : List String), Node.dir)] ["s"] ["t"] =
        .ok (fs', .created (enumerated
          [((["s"] : List String), Node.dir),
           ((["s", "sub"] : List String), Node.dir),
           ((["s", "sub", "a"] : List String), Node.file "A"),
           ((["s", "emptydir"] : List String), Node.dir)] ["s"] ["t"]).length) ∧
      (∀ x, lookupFS fs' x ≠ lookupFS
          [((["s"] : List String), Node.dir),
           ((["s", "sub"] : List String), Node.dir),
           ((["s", "sub", "a"] : List String), Node.file "A"),
           ((["s", "emptydir"] : List String), Node.dir)] x →
        (∃ e ∈ enumerated
            [((["s"] : List String), Node.dir),
             ((["s", "sub"] : List String), Node.dir),
             ((["s", "sub", "a"] : List String), Node.file "A"),
             ((["s", "emptydir"] : List String), Node.dir)] ["s"] ["t"],
          x = e.target) ∨
        (lookupFS fs' x = some Node.dir ∧
          lookupFS [((["s"] : List String), Node.dir),
            ((["s", "sub"] : List String), Node.dir),
            ((["s", "sub", "a"] : List String), Node.file "A"),
            ((["s", "emptydir"] : List String), Node.dir)] x = none ∧
          (startsWithComps x ["t"] = true ∨
           ∃ e ∈ enumerated
              [((["s"] : List String), Node.dir),
               ((["s", "sub"] : List String), Node.dir),
               ((["s", "sub", "a"] : List String), Node.file "A"),
               ((["s", "emptydir"] : List String), Node.dir)] ["s"] ["t"],
             startsWithComps x e.target.dropLast = true))) ∧
      (∀ (d : List String), (d, Node.dir) ∈
          [((["s"] : List String), Node.dir),
           ((["s", "sub"] : List String), Node.dir),
           ((["s", "sub", "a"] : List String), Node.file "A"),
           ((["s", "emptydir"] : List String), Node.dir)] →
        strictUnder ["s"] d = true →
        (∀ (q : List String) (nq : Node), (q, nq) ∈
            [((["s"] : List String), Node.dir),
             ((["s", "sub"] : List String), Node.dir),
             ((["s", "sub", "a"] : List String), Node.file "A"),
             ((["s", "emptydir"] : List String), Node.dir)] →
          strictUnder d q = true → nq = Node.dir) →
        lookupFS fs' (["t"] ++ d.drop 1) = none) :=
  C9_empty_dirs_not_recreated
    [((["s"] : List String), Node.dir),
     ((["s", "sub"] : List String), Node.dir),
     ((["s", "sub", "a"] : List String), Node.file "A"),
     ((["s", "emptydir"] : List String), Node.dir)] ["s"] ["t"]
    (by decide) (by decide) (by decide) (by decide) (by decide) (by decide)

/-! ## Helper lemmas for the planner/executor agreement claim -/

theorem lookup_eq_none_iff (fs : FS) (q : List String) :
    lookupFS fs q = none ↔ q ∉ keysFS fs := by
  induction fs with
  | nil => simp [lookupFS, keysFS]
  | cons e rest ih =>
      obtain ⟨a, b⟩ := e
      rw [lookupFS_cons]
      by_cases haq : a = q
      · subst haq
        rw [if_pos rfl]
        simp only [keysFS, List.map_cons, List.mem_cons]
        constructor
        · intro h
          cases h
        · intro h
          exact absurd (Or.inl trivial) h
      · simp only [if_neg haq, keysFS, List.map_cons, List.mem_cons]
        rw [ih]
        unfold keysFS
        constructor
        · intro h hh
          rcases hh with hh | hh
          · exact haq hh.symm
          · exact h hh
        · intro h
          exact fun hh => h (Or.inr hh)

theorem mkdirList_nodup {fs fs' : FS} {L : List (List String)}
    (h : mkdirList fs L = .ok fs') (hnd : (keysFS fs).Nodup) :
    (keysFS fs').Nodup := by
  induction L generalizing fs with
  | nil =>
      unfold mkdirList at h
      injection h with h
      rw [← h]
      exact hnd
  | cons q rest ih =>
      unfold mkdirList at h
      cases hl : lookupFS fs q with
      | none =>
          rw [hl] at h
          refine ih h ?_
          unfold keysFS
          rw [List.map_cons, List.nodup_cons]
          exact ⟨(lookup_eq_none_iff fs q).mp hl, hnd⟩
      | some n =>
          rw [hl] at h
          cases n with
          | dir => exact ih h hnd
          | file c => cases h
          | symlink lt => cases h

theorem mkdirList_structure {fs fs' : FS} {L : List (List String)}
    (h : mkdirList fs L = .ok fs') :
    ∃ ds : FS, fs' = ds ++ fs ∧ ∀ e ∈ ds, e.2 = Node.dir := by
  induction L generalizing fs with
  | nil =>
      unfold mkdirList at h
      injection h with h
      exact ⟨[], by rw [← h]; rfl, by simp⟩
  | cons q rest ih =>
      unfold mkdirList at h
      cases hl : lookupFS fs q with
      | none =>
          rw [hl] at h
          obtain ⟨ds, hds, hdirs⟩ := ih h
          refine ⟨ds ++ [(q, Node.dir)], by simp [hds], ?_⟩
          intro e he
          rcases List.mem_append.mp he with he | he
          · exact hdirs e he
          · simp at he
            rw [he]
      | some n =>
          rw [hl] at h
          cases n with
          | dir => exact ih h
          | file c => cases h
          | symlink lt => cases h

theorem enumerated_append_dirs (ds fs : FS) (src tgt : List String)
    (hdirs : ∀ e ∈ ds, e.2 = Node.dir) :
    enumerated (ds ++ fs) src tgt = enumerated fs src tgt := by
  unfold enumerated walkFrom
  rw [List.filter_append, List.filterMap_append]
  have h : List.filterMap (entryOfWalk src tgt)
      (ds.filter (fun e => startsWithComps src e.1)) = [] := by
    induction ds with
    | nil => rfl
    | cons e rest ih =>
        have hd : e.2 = Node.dir := hdirs e (by simp)
        have ihr : List.filterMap (entryOfWalk src tgt)
            (rest.filter (fun e => startsWithComps src e.1)) = [] :=
          ih (fun e' he' => hdirs e' (by simp [he']))
        rw [List.filter_cons]
        by_cases hc : startsWithComps src e.1 = true
        · rw [if_pos hc]
          rw [List.filterMap_cons]
          have : entryOfWalk src tgt e = none := by
            unfold entryOfWalk
            by_cases h1 : e.1 = src
            · rw [if_pos h1]
            · rw [if_neg h1, hd]
          rw [this, ihr]
        · rw [if_neg hc]
          exact ihr
  rw [h]
  rfl

theorem dirOkOn_dropLast {fs : FS} {t : List String}
    (h : dirOkOn fs (pathPrefixesOf t)) :
    dirOkOn fs (pathPrefixesOf t.dropLast) := by
  intro q hq
  by_cases ht : t = []
  · subst ht
    cases hq
  · obtain ⟨hne, hsw⟩ := (mem_pathPrefixesOf _ _).mp hq
    exact h q ((mem_pathPrefixesOf _ _).mpr ⟨hne, startsWith_dropLast ht hsw⟩)

theorem create_symlink_created (fs : FS) (s t : List String)
    (h1 : is_symlink fs t = false) (h2 : path_exists fs s = true)
    (hanc : dirOkOn fs (pathPrefixesOf t.dropLast)) :
    ∃ fs', create_symlink fs s t = .ok (fs', .created) := by
  obtain ⟨fs1, hok1, -⟩ := mkdirAll_spec fs t.dropLast hanc
  refine ⟨setNode (if path_exists fs1 t then
      (if is_dir fs1 t then removeTree fs1 t else removeKey fs1 t)
    else fs1) t (Node.symlink (renderPath s)), ?_⟩
  unfold create_symlink
  rw [h1, h2]
  show (do
      let fs1 ← mkdirAll fs t.dropLast
      let fs2 :=
        if path_exists fs1 t then
          if is_dir fs1 t then removeTree fs1 t else removeKey fs1 t
        else fs1
      Except.ok (setNode fs2 t (Node.symlink (renderPath s)),
        OperationResult.created)) = _
  rw [hok1]
  rfl

theorem copy_file_op_created (fs : FS) (s t : List String)
    (hs : ∃ c, lookupFS fs s = some (Node.file c))
    (ht : lookupFS fs t = none)
    (hanc : dirOkOn fs (pathPrefixesOf t.dropLast)) :
    ∃ fs', copy_file_op fs s t = .ok (fs', .created) := by
  obtain ⟨c, hs⟩ := hs
  have hsx : path_exists fs s = true := (path_exists_iff fs s).mpr ⟨_, hs⟩
  have htx : path_exists fs t = false := (path_exists_false_iff fs t).mpr ht
  obtain ⟨fs0, hok0, hchar0⟩ := mkdirAll_spec fs t.dropLast hanc
  have hs0 : lookupFS fs0 s = some (Node.file c) := by
    rw [hchar0 s, if_neg]
    · exact hs
    · rintro ⟨-, hnone⟩
      rw [hs] at hnone
      cases hnone
  have ht0 : lookupFS fs0 t = none := by
    rw [hchar0 t, if_neg]
    · exact ht
    · rintro ⟨hmem, -⟩
      exact not_mem_own_parent_prefixes t hmem
  have hnd0 : is_dir fs0 t = false := by
    cases h : is_dir fs0 t
    · rfl
    · rw [(is_dir_iff fs0 t).mp h] at ht0
      cases ht0
  have hraw : copy_file_raw fs0 s t = .ok (setNode fs0 t (Node.file c)) := by
    unfold copy_file_raw
    rw [hs0, hnd0]
    rfl
  have hcf : copy_file fs s t =
      .ok (setNode fs0 t (Node.file c), .created 1) := by
    unfold copy_file
    rw [hsx, htx]
    show (do
        let fs1 ← mkdirAll fs t.dropLast
        let fs2 ← copy_file_raw fs1 s t
        Except.ok (fs2, CopyResult.created 1)) = _
    rw [hok0]
    show (do
        let fs2 ← copy_file_raw fs0 s t
        Except.ok (fs2, CopyResult.created 1)) = _
    rw [hraw]
    rfl
  refine ⟨setNode fs0 t (Node.file c), ?_⟩
  unfold copy_file_op
  rw [hcf]
  rfl

theorem overwrite_file_op_created (fs : FS) (s t : List String)
    (hs : ∃ c, lookupFS fs s = some (Node.file c))
    (ht : lookupFS fs t ≠ some Node.dir)
    (hanc : dirOkOn fs (pathPrefixesOf t.dropLast)) :
    ∃ fs', overwrite_file_op fs s t = .ok (fs',
      if path_exists fs t then OperationResult.overwritten
      else OperationResult.created) := by
  obtain ⟨c, hs⟩ := hs
  have hsx : path_exists fs s = true := (path_exists_iff fs s).mpr ⟨_, hs⟩
  obtain ⟨fs0, hok0, hchar0⟩ := mkdirAll_spec fs t.dropLast hanc
  have hs0 : lookupFS fs0 s = some (Node.file c) := by
    rw [hchar0 s, if_neg]
    · exact hs
    · rintro ⟨-, hnone⟩
      rw [hs] at hnone
      cases hnone
  have ht0 : lookupFS fs0 t = lookupFS fs t := by
    rw [hchar0 t, if_neg]
    rintro ⟨hmem, -⟩
    exact not_mem_own_parent_prefixes t hmem
  have hnd0 : is_dir fs0 t = false := by
    cases h : is_dir fs0 t
    · rfl
    · have := (is_dir_iff fs0 t).mp h
      rw [ht0] at this
      exact absurd this ht
  have hraw : copy_file_raw fs0 s t = .ok (setNode fs0 t (Node.file c)) := by
    unfold copy_file_raw
    rw [hs0, hnd0]
    rfl
  have hov : overwrite_file fs s t =
      .ok (setNode fs0 t (Node.file c), .created 1) := by
    unfold overwrite_file
    rw [hsx]
    show (do
        let fs1 ← mkdirAll fs t.dropLast
        let fs2 ← copy_file_raw fs1 s t
        Except.ok (fs2, CopyResult.created 1)) = _
    rw [hok0]
    show (do
        let fs2 ← copy_file_raw fs0 s t
        Except.ok (fs2, CopyResult.created 1)) = _
    rw [hraw]
    rfl
  refine ⟨setNode fs0 t (Node.file c), ?_⟩
  unfold overwrite_file_op
  rw [hsx, hov]
  rfl

theorem copy_directory_op_result (fs : FS) (src tgt : List String)
    (hnd : (keysFS fs).Nodup)
    (hwf : ∀ e ∈ fs, ∀ e' ∈ fs, strictUnder e.1 e'.1 = true → e.2 = Node.dir)
    (hsrcdir : lookupFS fs src = some Node.dir)
    (hanc : dirOkOn fs (pathPrefixesOf tgt))
    (htne : tgt ≠ [])
    (hclean : lookupFS fs tgt = none →
      ∀ e ∈ fs, startsWithComps tgt e.1 = false) :
    ∃ fs', copy_directory_op fs src tgt = .ok (fs',
      if path_exists fs tgt then OperationResult.alreadyExists
      else OperationResult.created) := by
  have hancd : dirOkOn fs (pathPrefixesOf tgt.dropLast) := dirOkOn_dropLast hanc
  obtain ⟨fs0, hok0, hchar0⟩ := mkdirAll_spec fs tgt.dropLast hancd
  have hok0' : mkdirList fs (pathPrefixesOf tgt.dropLast) = .ok fs0 := hok0
  have hnd0 : (keysFS fs0).Nodup := mkdirList_nodup hok0' hnd
  have htgt0 : lookupFS fs0 tgt = lookupFS fs tgt := by
    rw [hchar0 tgt, if_neg]
    rintro ⟨hmem, -⟩
    exact not_mem_own_parent_prefixes tgt hmem
  have hsrc0 : lookupFS fs0 src = some Node.dir := by
    rw [hchar0 src, if_neg]
    · exact hsrcdir
    · rintro ⟨-, hnone⟩
      rw [hsrcdir] at hnone
      cases hnone
  have hsrc0x : path_exists fs0 src = true :=
    (path_exists_iff fs0 src).mpr ⟨_, hsrc0⟩
  cases htgt : lookupFS fs tgt with
  | some n =>
      have htgtex : path_exists fs tgt = true :=
        (path_exists_iff fs tgt).mpr ⟨_, htgt⟩
      have htgt0x : path_exists fs0 tgt = true := by
        rw [path_exists_iff, htgt0, htgt]
        exact ⟨n, rfl⟩
      have hcd : copy_directory fs0 src tgt = .ok (fs0, .alreadyExists) := by
        unfold copy_directory
        rw [hsrc0x, htgt0x]
        rfl
      refine ⟨fs0, ?_⟩
      unfold copy_directory_op
      rw [htgtex]
      show (do
          let fs0 ← mkdirAll fs tgt.dropLast
          let r ← copy_directory fs0 src tgt
          Except.ok (r.1, map_copy_result r.2)) = _
      rw [hok0]
      show (do
          let r ← copy_directory fs0 src tgt
          Except.ok (r.1, map_copy_result r.2)) = _
      rw [hcd]
      rfl
  | none =>
      have htgtex : path_exists fs tgt = false :=
        (path_exists_false_iff fs tgt).mpr htgt
      have hcleanx := hclean htgt
      -- Well-formedness carries over to the post-mkdir filesystem.
      have hroot_dir : ∀ m, lookupFS fs [] = some m → m = Node.dir := by
        intro m hm
        by_cases hsrcnil : src = []
        · rw [hsrcnil] at hsrcdir
          rw [hsrcdir] at hm
          injection hm with hm
          exact hm.symm
        · have hstrict : strictUnder [] src = true := by
            unfold strictUnder
            rw [if_neg (fun hh => hsrcnil hh.symm)]
            rfl
          exact hwf ([], m) (mem_of_lookup hm) (src, Node.dir)
            (mem_of_lookup hsrcdir) hstrict
      have hwf0 : ∀ e ∈ fs0, ∀ e' ∈ fs0,
          strictUnder e.1 e'.1 = true → e.2 = Node.dir := by
        intro e he e' he' hstrict
        have hle := lookup_of_mem_nodup hnd0 (q := e.1) (n := e.2)
          (by simpa using he)
        have hle' := lookup_of_mem_nodup hnd0 (q := e'.1) (n := e'.2)
          (by simpa using he')
        rw [hchar0 e.1] at hle
        by_cases hce : e.1 ∈ pathPrefixesOf tgt.dropLast ∧ lookupFS fs e.1 = none
        · rw [if_pos hce] at hle
          injection hle with hle
          exact hle.symm
        · rw [if_neg hce] at hle
          rw [hchar0 e'.1] at hle'
          by_cases hce' : e'.1 ∈ pathPrefixesOf tgt.dropLast ∧
              lookupFS fs e'.1 = none
          · -- e'.1 is a freshly created directory on a prefix chain.
            by_cases henil : e.1 = []
            · rw [henil] at hle
              exact hroot_dir e.2 hle
            · have hsw1 : startsWithComps e.1 e'.1 = true := by
                unfold strictUnder at hstrict
                by_cases hh : e.1 = e'.1
                · rw [if_pos hh] at hstrict; cases hstrict
                · rw [if_neg hh] at hstrict; exact hstrict
              have hsw2 : startsWithComps e'.1 tgt.dropLast = true :=
                ((mem_pathPrefixesOf _ _).mp hce'.1).2
              have hmem : e.1 ∈ pathPrefixesOf tgt.dropLast :=
                (mem_pathPrefixesOf _ _).mpr
                  ⟨henil, startsWith_trans hsw1 hsw2⟩
              rcases hancd e.1 hmem with hx | hx
              · rw [hx] at hle; cases hle
              · rw [hx] at hle
                injection hle with hle
                exact hle.symm
          · rw [if_neg hce'] at hle'
            exact hwf (e.1, e.2) (by simpa using mem_of_lookup hle)
              (e'.1, e'.2) (by simpa using mem_of_lookup hle') hstrict
      have hclean0 : ∀ e ∈ fs0, startsWithComps tgt e.1 = false := by
        intro e he
        have hle := lookup_of_mem_nodup hnd0 (q := e.1) (n := e.2)
          (by simpa using he)
        rw [hchar0 e.1] at hle
        by_cases hce : e.1 ∈ pathPrefixesOf tgt.dropLast ∧ lookupFS fs e.1 = none
        · obtain ⟨hne, hsw⟩ := (mem_pathPrefixesOf _ _).mp hce.1
          cases hx : startsWithComps tgt e.1
          · rfl
          · have l1 := length_le_of_startsWith hsw
            have l2 := length_le_of_startsWith hx
            rw [List.length_dropLast] at l1
            have htl : 1 ≤ tgt.length := by
              cases tgt with
              | nil => exact absurd rfl htne
              | cons a as => simp
            omega
        · rw [if_neg hce] at hle
          exact hcleanx (e.1, e.2) (by simpa using mem_of_lookup hle)
      have hanc0 : dirOkOn fs0 (pathPrefixesOf tgt) := by
        intro q hq
        rw [hchar0 q]
        by_cases hc : q ∈ pathPrefixesOf tgt.dropLast ∧ lookupFS fs q = none
        · rw [if_pos hc]
          exact Or.inr rfl
        · rw [if_neg hc]
          exact hanc q hq
      obtain ⟨fs', hok, -, -, -, -⟩ :=
        copy_directory_created fs0 src tgt hnd0 hwf0
          (by rw [hsrc0]; intro hh; cases hh) hclean0 hanc0 htne
      refine ⟨fs', ?_⟩
      unfold copy_directory_op
      rw [htgtex]
      show (do
          let fs0 ← mkdirAll fs tgt.dropLast
          let r ← copy_directory fs0 src tgt
          Except.ok (r.1, map_copy_result r.2)) = _
      rw [hok0]
      show (do
          let r ← copy_directory fs0 src tgt
          Except.ok (r.1, map_copy_result r.2)) = _
      rw [hok]
      rfl

theorem plan_symlink_fields (fs : FS) (mainW targetW cfgRel : List String)
    (p : RawPath) :
    (plan_symlink fs mainW targetW cfgRel p).source =
      (resolve_comps mainW cfgRel p).1 ∧
    (plan_symlink fs mainW targetW cfgRel p).target =
      (resolve_comps targetW cfgRel p).1 ∧
    (plan_symlink fs mainW targetW cfgRel p).operation_type =
      OperationType.Symlink ∧
    (plan_symlink fs mainW targetW cfgRel p).is_directory = false :=
  ⟨rfl, rfl, rfl, rfl⟩

theorem plan_symlink_not_skipped {fs : FS} {mainW targetW cfgRel : List String}
    {p : RawPath}
    (h : (plan_symlink fs mainW targetW cfgRel p).will_skip = false) :
    path_exists fs (resolve_comps mainW cfgRel p).1 = true ∧
    path_exists fs (resolve_comps targetW cfgRel p).1 = false ∧
    is_symlink fs (resolve_comps targetW cfgRel p).1 = false := by
  unfold plan_symlink at h
  by_cases h1 : path_exists fs (resolve_comps mainW cfgRel p).1 = true
  · by_cases h2 : (path_exists fs (resolve_comps targetW cfgRel p).1 ||
        is_symlink fs (resolve_comps targetW cfgRel p).1) = true
    · simp [h1, h2] at h
    · rw [Bool.or_eq_true] at h2
      push_neg at h2
      exact ⟨h1, by simpa using h2.1, by simpa using h2.2⟩
  · simp [h1] at h

theorem plan_copy_fields (fs : FS) (mainW targetW cfgRel : List String)
    (p : RawPath) :
    (plan_copy fs mainW targetW cfgRel p).source =
      (resolve_comps mainW cfgRel p).1 ∧
    (plan_copy fs mainW targetW cfgRel p).target =
      (resolve_comps targetW cfgRel p).1 ∧
    (plan_copy fs mainW targetW cfgRel p).operation_type =
      OperationType.Copy :=
  ⟨rfl, rfl, rfl⟩

theorem plan_copy_not_skipped {fs : FS} {mainW targetW cfgRel : List String}
    {p : RawPath}
    (h : (plan_copy fs mainW targetW cfgRel p).will_skip = false) :
    path_exists fs (resolve_comps mainW cfgRel p).1 = true ∧
    path_exists fs (resolve_comps targetW cfgRel p).1 = false ∧
    (plan_copy fs mainW targetW cfgRel p).is_directory =
      is_dir fs (resolve_comps mainW cfgRel p).1 := by
  unfold plan_copy at h ⊢
  by_cases h1 : path_exists fs (resolve_comps mainW cfgRel p).1 = true
  · by_cases h2 : path_exists fs (resolve_comps targetW cfgRel p).1 = true
    · simp [h1, h2] at h
    · refine ⟨h1, by simpa using h2, ?_⟩
      simp [h1, h2]
  · simp [h1] at h

theorem plan_overwrite_fields (fs : FS) (mainW targetW cfgRel : List String)
    (p : RawPath) :
    (plan_overwrite fs mainW targetW cfgRel p).source =
      (resolve_comps mainW cfgRel p).1 ∧
    (plan_overwrite fs mainW targetW cfgRel p).target =
      (resolve_comps targetW cfgRel p).1 ∧
    (plan_overwrite fs mainW targetW cfgRel p).operation_type =
      OperationType.Overwrite :=
  ⟨rfl, rfl, rfl⟩

theorem plan_overwrite_not_skipped {fs : FS}
    {mainW targetW cfgRel : List String} {p : RawPath}
    (h : (plan_overwrite fs mainW targetW cfgRel p).will_skip = false) :
    path_exists fs (resolve_comps mainW cfgRel p).1 = true ∧
    (plan_overwrite fs mainW targetW cfgRel p).is_directory =
      is_dir fs (resolve_comps mainW cfgRel p).1 := by
  unfold plan_overwrite at h ⊢
  by_cases h1 : path_exists fs (resolve_comps mainW cfgRel p).1 = true
  · refine ⟨h1, ?_⟩
    simp [h1]
  · simp [h1] at h

theorem plan_template_fields (fs : FS) (mainW targetW cfgRel : List String)
    (t : TemplateMapping) :
    (plan_template fs mainW targetW cfgRel t).source =
      (resolve_comps mainW cfgRel t.source).1 ∧
    (plan_template fs mainW targetW cfgRel t).target =
      (resolve_comps targetW cfgRel t.target).1 ∧
    (plan_template fs mainW targetW cfgRel t).operation_type =
      OperationType.Template ∧
    (plan_template fs mainW targetW cfgRel t).is_directory = false :=
  ⟨rfl, rfl, rfl, rfl⟩

theorem plan_template_not_skipped {fs : FS}
    {mainW targetW cfgRel : List String} {t : TemplateMapping}
    (h : (plan_template fs mainW targetW cfgRel t).will_skip = false) :
    path_exists fs (resolve_comps mainW cfgRel t.source).1 = true ∧
    path_exists fs (resolve_comps targetW cfgRel t.target).1 = false := by
  unfold plan_template at h
  by_cases h1 : path_exists fs (resolve_comps mainW cfgRel t.source).1 = true
  · by_cases h2 : path_exists fs (resolve_comps targetW cfgRel t.target).1 = true
    · simp [h1, h2] at h
    · exact ⟨h1, by simpa using h2⟩
  · simp [h1] at h

theorem plan_glob_mem {fs : FS} {mainW targetW cfgRel : List String}
    {gm : GlobPat → List (List String)} {g : GlobPat}
    {op : PlannedOperation}
    (h : op ∈ plan_glob fs mainW targetW cfgRel gm g) :
    op.operation_type = OperationType.CopyGlob ∧
    op.is_directory = false ∧
    (op.will_skip = false → path_exists fs op.target = false) := by
  unfold plan_glob at h
  obtain ⟨m, hm, heq⟩ := List.mem_filterMap.mp h
  by_cases hsw : startsWithComps (if g.rooted then mainW else mainW ++ cfgRel)
      m = true
  · rw [if_pos hsw] at heq
    injection heq with heq
    subst heq
    refine ⟨rfl, rfl, ?_⟩
    intro hns
    cases h2 : path_exists fs (if g.rooted = true then
        targetW ++ List.drop (if g.rooted = true then mainW
          else mainW ++ cfgRel).length m
      else targetW ++ cfgRel ++ List.drop (if g.rooted = true then mainW
          else mainW ++ cfgRel).length m) with
    | false => rfl
    | true =>
        exfalso
        have hws : (if path_exists fs (if g.rooted = true then
              targetW ++ List.drop (if g.rooted = true then mainW
                else mainW ++ cfgRel).length m
            else targetW ++ cfgRel ++ List.drop (if g.rooted = true then mainW
                else mainW ++ cfgRel).length m) = true then
            ((true : Bool), some "exists") else (false, none)).1 = false := hns
        rw [if_pos h2] at hws
        simp at hws
  · rw [if_neg hsw] at heq
    cases heq

theorem plan_unstaged_mem {fs : FS} {mainW targetW : List String}
    {files : List (List String)} {op : PlannedOperation}
    (h : op ∈ plan_unstaged_operations fs mainW targetW files) :
    op.operation_type = OperationType.Unstaged ∧
    op.is_directory = false ∧
    path_exists fs op.source = true := by
  unfold plan_unstaged_operations at h
  obtain ⟨f, hf, heq⟩ := List.mem_filterMap.mp h
  by_cases hex : path_exists fs (mainW ++ f) = true
  · rw [if_pos hex] at heq
    injection heq with heq
    subst heq
    exact ⟨rfl, rfl, hex⟩
  · rw [if_neg hex] at heq
    cases heq

theorem execute_operation_not_skipped {fs : FS} {op : PlannedOperation}
    (h : op.will_skip = false) :
    execute_operation fs op =
      match op.operation_type with
      | .Symlink => create_symlink fs op.source op.target
      | .Copy | .CopyGlob | .Template =>
          if op.is_directory then copy_directory_op fs op.source op.target
          else copy_file_op fs op.source op.target
      | .Overwrite | .Unstaged =>
          if op.is_directory then copy_directory_op fs op.source op.target
          else overwrite_file_op fs op.source op.target := by
  unfold execute_operation
  rw [h]
  rfl

/-- C2 (amended): a planned operation with the skip flag set executes to
Exists when the skip reason is "exists" and to Skipped otherwise,
without touching the filesystem; a planned operation with the skip flag
not set, executed against the filesystem it was planned on, returns
Created or Overwritten — except that an Overwrite (or Unstaged)
operation on a directory whose target exists returns Exists, the
known directory-overwrite gap: the planner never skips an overwrite for
an existing target, but the executor delegates directory overwrites to
the create-if-absent directory copy. -/
theorem C2_plan_execute_agreement :
    (∀ (fs : FS) (op : PlannedOperation),
      op.will_skip = true → op.skip_reason = some "exists" →
      execute_operation fs op = .ok (fs, .alreadyExists)) ∧
    (∀ (fs : FS) (op : PlannedOperation),
      op.will_skip = true → op.skip_reason ≠ some "exists" →
      execute_operation fs op = .ok (fs, .skipped)) ∧
    (∀ (fs : FS) (mainW targetW cfgRel : List String)
        (gm : GlobPat → List (List String)) (cfg : Config)
        (files : List (List String)) (op : PlannedOperation),
      op ∈ plan_operations fs mainW targetW cfgRel gm cfg ++
        plan_unstaged_operations fs mainW targetW files →
      op.will_skip = false →
      (keysFS fs).Nodup →
      (∀ e ∈ fs, ∀ e' ∈ fs, strictUnder e.1 e'.1 = true → e.2 = Node.dir) →
      dirOkOn fs (pathPrefixesOf op.target) →
      op.target ≠ [] →
      (lookupFS fs op.target = none →
        ∀ e ∈ fs, startsWithComps op.target e.1 = false) →
      (op.is_directory = false → op.operation_type ≠ OperationType.Symlink →
        ∀ n, lookupFS fs op.source = some n → ∃ c, n = Node.file c) →
      (op.operation_type = OperationType.CopyGlob →
        lookupFS fs op.source ≠ none) →
      (op.is_directory = false → lookupFS fs op.target ≠ some Node.dir) →
      ∃ fs' r, execute_operation fs op = .ok (fs', r) ∧
        (r = OperationResult.created ∨ r = OperationResult.overwritten ∨
          ((op.operation_type = OperationType.Overwrite ∨
              op.operation_type = OperationType.Unstaged) ∧
            op.is_directory = true ∧ lookupFS fs op.target ≠ none ∧
            r = OperationResult.alreadyExists))) := by
  refine ⟨?_, ?_, ?_⟩
  · intro fs op hsk hex
    unfold execute_operation
    rw [hsk, hex]
    rfl
  · intro fs op hsk hex
    unfold execute_operation
    rw [hsk]
    cases hr : op.skip_reason with
    | none => rfl
    | some r =>
        have hrne : ¬ r = "exists" := by
          intro hh
          exact hex (by rw [hr, hh])
        simp [hrne]
  · intro fs mainW targetW cfgRel gm cfg files op hmem hskip hnd hwf hanc
      htne hcleanT hfile hglob htgtnd
    -- The single-file executions, shared by several kinds below.
    have hsingle_copy : op.is_directory = false →
        op.operation_type ≠ OperationType.Symlink →
        lookupFS fs op.source ≠ none →
        lookupFS fs op.target = none →
        ∃ fs', copy_file_op fs op.source op.target = .ok (fs', .created) := by
      intro hdir htyne hsome htabs
      obtain ⟨n, hn⟩ := Option.ne_none_iff_exists'.mp hsome
      obtain ⟨c, hc⟩ := hfile hdir htyne n hn
      exact copy_file_op_created fs op.source op.target
        ⟨c, by rw [hn, hc]⟩ htabs (dirOkOn_dropLast hanc)
    have hsingle_ov : op.is_directory = false →
        op.operation_type ≠ OperationType.Symlink →
        lookupFS fs op.source ≠ none →
        ∃ fs', overwrite_file_op fs op.source op.target = .ok (fs',
          if path_exists fs op.target then OperationResult.overwritten
          else OperationResult.created) := by
      intro hdir htyne hsome
      obtain ⟨n, hn⟩ := Option.ne_none_iff_exists'.mp hsome
      obtain ⟨c, hc⟩ := hfile hdir htyne n hn
      exact overwrite_file_op_created fs op.source op.target
        ⟨c, by rw [hn, hc]⟩ (htgtnd hdir) (dirOkOn_dropLast hanc)
    -- The directory execution, shared by Copy and Overwrite kinds.
    have hdir_exec : op.is_directory = true →
        lookupFS fs op.source = some Node.dir →
        ∃ fs', copy_directory_op fs op.source op.target = .ok (fs',
          if path_exists fs op.target then OperationResult.alreadyExists
          else OperationResult.created) := by
      intro _ hsrcdir
      exact copy_directory_op_result fs op.source op.target hnd hwf hsrcdir
        hanc htne hcleanT
    rcases List.mem_append.mp hmem with hplan | hunst
    · unfold plan_operations at hplan
      simp only [List.mem_append] at hplan
      rcases hplan with ((((hsym | hcop) | hov) | hgl) | htpl)
      · -- Symlink kind.
        obtain ⟨p, hp, heq⟩ := List.mem_map.mp hsym
        have htype : op.operation_type = OperationType.Symlink := by
          rw [← heq]
          rfl
        have hskip' : (plan_symlink fs mainW targetW cfgRel p).will_skip =
            false := by rw [heq]; exact hskip
        obtain ⟨h1, h2, h3⟩ := plan_symlink_not_skipped hskip'
        have hexec : execute_operation fs op =
            create_symlink fs op.source op.target := by
          rw [execute_operation_not_skipped hskip, htype]
        obtain ⟨fs', hex⟩ := create_symlink_created fs op.source op.target
          (by rw [← heq]; exact h3) (by rw [← heq]; exact h1)
          (dirOkOn_dropLast hanc)
        exact ⟨fs', .created, by rw [hexec, hex], Or.inl rfl⟩
      · -- Copy kind.
        obtain ⟨p, hp, heq⟩ := List.mem_map.mp hcop
        have htype : op.operation_type = OperationType.Copy := by
          rw [← heq]
          rfl
        have hskip' : (plan_copy fs mainW targetW cfgRel p).will_skip =
            false := by rw [heq]; exact hskip
        obtain ⟨h1, h2, h3⟩ := plan_copy_not_skipped hskip'
        have h2' : path_exists fs op.target = false := by
          rw [← heq]
          exact h2
        have htabs : lookupFS fs op.target = none :=
          (path_exists_false_iff _ _).mp h2'
        have h1' : path_exists fs op.source = true := by
          rw [← heq]
          exact h1
        have hsome : lookupFS fs op.source ≠ none := by
          obtain ⟨n, hn⟩ := (path_exists_iff _ _).mp h1'
          rw [hn]
          intro hh
          cases hh
        cases hisd : is_dir fs (resolve_comps mainW cfgRel p).1 with
        | true =>
            have hdirT : op.is_directory = true := by
              rw [← heq, h3]
              exact hisd
            have hsrcdir : lookupFS fs op.source = some Node.dir := by
              rw [← heq]
              exact (is_dir_iff _ _).mp hisd
            obtain ⟨fs', hex⟩ := hdir_exec hdirT hsrcdir
            have hexec : execute_operation fs op =
                copy_directory_op fs op.source op.target := by
              rw [execute_operation_not_skipped hskip, htype, hdirT]
              rfl
            have hpe : path_exists fs op.target = false :=
              (path_exists_false_iff _ _).mpr htabs
            rw [hpe] at hex
            exact ⟨fs', .created, by rw [hexec]; simpa using hex, Or.inl rfl⟩
        | false =>
            have hdirF : op.is_directory = false := by
              rw [← heq, h3]
              exact hisd
            have htyne : op.operation_type ≠ OperationType.Symlink := by
              rw [htype]
              intro hh
              cases hh
            obtain ⟨fs', hex⟩ := hsingle_copy hdirF htyne hsome htabs
            have hexec : execute_operation fs op =
                copy_file_op fs op.source op.target := by
              rw [execute_operation_not_skipped hskip, htype, hdirF]
              rfl
            exact ⟨fs', .created, by rw [hexec]; exact hex, Or.inl rfl⟩
      · -- Overwrite kind.
        obtain ⟨p, hp, heq⟩ := List.mem_map.mp hov
        have htype : op.operation_type = OperationType.Overwrite := by
          rw [← heq]
          rfl
        have hskip' : (plan_overwrite fs mainW targetW cfgRel p).will_skip =
            false := by rw [heq]; exact hskip
        obtain ⟨h1, h3⟩ := plan_overwrite_not_skipped hskip'
        have h1' : path_exists fs op.source = true := by
          rw [← heq]
          exact h1
        have hsome : lookupFS fs op.source ≠ none := by
          obtain ⟨n, hn⟩ := (path_exists_iff _ _).mp h1'
          rw [hn]
          intro hh
          cases hh
        cases hisd : is_dir fs (resolve_comps mainW cfgRel p).1 with
        | true =>
            have hdirT : op.is_directory = true := by
              rw [← heq, h3]
              exact hisd
            have hsrcdir : lookupFS fs op.source = some Node.dir := by
              rw [← heq]
              exact (is_dir_iff _ _).mp hisd
            obtain ⟨fs', hex⟩ := hdir_exec hdirT hsrcdir
            have hexec : execute_operation fs op =
                copy_directory_op fs op.source op.target := by
              rw [execute_operation_not_skipped hskip, htype, hdirT]
              rfl
            cases hpe : path_exists fs op.target with
            | true =>
                rw [hpe] at hex
                refine ⟨fs', .alreadyExists, by rw [hexec]; simpa using hex,
                  Or.inr (Or.inr ⟨Or.inl htype, hdirT, ?_, rfl⟩)⟩
                obtain ⟨n, hn⟩ := (path_exists_iff _ _).mp hpe
                rw [hn]
                intro hh
                cases hh
            | false =>
                rw [hpe] at hex
                exact ⟨fs', .created, by rw [hexec]; simpa using hex,
                  Or.inl rfl⟩
        | false =>
            have hdirF : op.is_directory = false := by
              rw [← heq, h3]
              exact hisd
            have htyne : op.operation_type ≠ OperationType.Symlink := by
              rw [htype]
              intro hh
              cases hh
            obtain ⟨fs', hex⟩ := hsingle_ov hdirF htyne hsome
            have hexec : execute_operation fs op =
                overwrite_file_op fs op.source op.target := by
              rw [execute_operation_not_skipped hskip, htype, hdirF]
              rfl
            cases hpe : path_exists fs op.target with
            | true =>
                rw [hpe] at hex
                exact ⟨fs', .overwritten, by rw [hexec]; simpa using hex,
                  Or.inr (Or.inl rfl)⟩
            | false =>
                rw [hpe] at hex
                exact ⟨fs', .created, by rw [hexec]; simpa using hex,
                  Or.inl rfl⟩
      · -- CopyGlob kind.
        obtain ⟨g, hg, hopg⟩ := List.mem_flatMap.mp hgl
        obtain ⟨htype, hdirF, himpl⟩ := plan_glob_mem hopg
        have htyne : op.operation_type ≠ OperationType.Symlink := by
          rw [htype]
          intro hh
          cases hh
        have htabs : lookupFS fs op.target = none :=
          (path_exists_false_iff _ _).mp (himpl hskip)
        obtain ⟨fs', hex⟩ := hsingle_copy hdirF htyne (hglob htype) htabs
        have hexec : execute_operation fs op =
            copy_file_op fs op.source op.target := by
          rw [execute_operation_not_skipped hskip, htype, hdirF]
          rfl
        exact ⟨fs', .created, by rw [hexec]; exact hex, Or.inl rfl⟩
      · -- Template kind.
        obtain ⟨t, ht, heq⟩ := List.mem_map.mp htpl
        have htype : op.operation_type = OperationType.Template := by
          rw [← heq]
          rfl
        have hdirF : op.is_directory = false := by
          rw [← heq]
          rfl
        have hskip' : (plan_template fs mainW targetW cfgRel t).will_skip =
            false := by rw [heq]; exact hskip
        obtain ⟨h1, h2⟩ := plan_template_not_skipped hskip'
        have h2' : path_exists fs op.target = false := by
          rw [← heq]
          exact h2
        have htabs : lookupFS fs op.target = none :=
          (path_exists_false_iff _ _).mp h2'
        have h1' : path_exists fs op.source = true := by
          rw [← heq]
          exact h1
        have hsome : lookupFS fs op.source ≠ none := by
          obtain ⟨n, hn⟩ := (path_exists_iff _ _).mp h1'
          rw [hn]
          intro hh
          cases hh
        have htyne : op.operation_type ≠ OperationType.Symlink := by
          rw [htype]
          intro hh
          cases hh
        obtain ⟨fs', hex⟩ := hsingle_copy hdirF htyne hsome htabs
        have hexec : execute_operation fs op =
            copy_file_op fs op.source op.target := by
          rw [execute_operation_not_skipped hskip, htype, hdirF]
          rfl
        exact ⟨fs', .created, by rw [hexec]; exact hex, Or.inl rfl⟩
    · -- Unstaged kind.
      obtain ⟨htype, hdirF, hsrcx⟩ := plan_unstaged_mem hunst
      have htyne : op.operation_type ≠ OperationType.Symlink := by
        rw [htype]
        intro hh
        cases hh
      have hsome : lookupFS fs op.source ≠ none := by
        obtain ⟨n, hn⟩ := (path_exists_iff _ _).mp hsrcx
        rw [hn]
        intro hh
        cases hh
      obtain ⟨fs', hex⟩ := hsingle_ov hdirF htyne hsome
      have hexec : execute_operation fs op =
          overwrite_file_op fs op.source op.target := by
        rw [execute_operation_not_skipped hskip, htype, hdirF]
        rfl
      cases hpe : path_exists fs op.target with
      | true =>
          rw [hpe] at hex
          exact ⟨fs', .overwritten, by rw [hexec]; simpa using hex,
            Or.inr (Or.inl rfl)⟩
      | false =>
          rw [hpe] at hex
          exact ⟨fs', .created, by rw [hexec]; simpa using hex, Or.inl rfl⟩

/-- C2 counterexample: an overwrite declaration whose source is a
directory and whose target directory already exists is planned with the
skip flag not set, yet executing it against the unchanged filesystem
returns Exists (the executor delegates directory overwrites to the
create-if-absent directory copy), refuting "never Exists or Skipped". -/
theorem C2_counterexample :
    (plan_overwrite [((["m", "d"] : List String), Node.dir),
        ((["m", "d", "a"] : List String), Node.file "A"),
        ((["t", "d"] : List String), Node.dir)]
      ["m"] ["t"] [] ⟨false, ["d"]⟩).will_skip = false ∧
    plan_overwrite [((["m", "d"] : List String), Node.dir),
        ((["m", "d", "a"] : List String), Node.file "A"),
        ((["t", "d"] : List String), Node.dir)]
      ["m"] ["t"] [] ⟨false, ["d"]⟩ ∈
      plan_operations [((["m", "d"] : List String), Node.dir),
          ((["m", "d", "a"] : List String), Node.file "A"),
          ((["t", "d"] : List String), Node.dir)]
        ["m"] ["t"] [] (fun _ => [])
        ⟨[], [], [⟨false, ["d"]⟩], [], []⟩ ∧
    execute_operation [((["m", "d"] : List String), Node.dir),
        ((["m", "d", "a"] : List String), Node.file "A"),
        ((["t", "d"] : List String), Node.dir)]
      (plan_overwrite [((["m", "d"] : List String), Node.dir),
          ((["m", "d", "a"] : List String), Node.file "A"),
          ((["t", "d"] : List String), Node.dir)]
        ["m"] ["t"] [] ⟨false, ["d"]⟩) =
      .ok ([((["t"] : List String), Node.dir),
        ((["m", "d"] : List String), Node.dir),
        ((["m", "d", "a"] : List String), Node.file "A"),
        ((["t", "d"] : List String), Node.dir)],
        OperationResult.alreadyExists) ∧
    OperationResult.alreadyExists ≠ OperationResult.created ∧
    OperationResult.alreadyExists ≠ OperationResult.overwritten := by
  refine ⟨by decide, by decide, by rfl, by decide, by decide⟩

/-- Witness for C2: a non-skipped planned copy of a single file executes
to Created. -/
theorem C2_plan_execute_agreement_witness :
    ∃ fs' r, execute_operation [((["m", "f"] : List String), Node.file "X")]
        (plan_copy [((["m", "f"] : List String), Node.file "X")]
          ["m"] ["t"] [] ⟨false, ["f"]⟩) = .ok (fs', r) ∧
      (r = OperationResult.created ∨ r = OperationResult.overwritten ∨
        (((plan_copy [((["m", "f"] : List String), Node.file "X")]
            ["m"] ["t"] [] ⟨false, ["f"]⟩).operation_type =
              OperationType.Overwrite ∨
          (plan_copy [((["m", "f"] : List String), Node.file "X")]
            ["m"] ["t"] [] ⟨false, ["f"]⟩).operation_type =
              OperationType.Unstaged) ∧
          (plan_copy [((["m", "f"] : List String), Node.file "X")]
            ["m"] ["t"] [] ⟨false, ["f"]⟩).is_directory = true ∧
          lookupFS [((["m", "f"] : List String), Node.file "X")]
            (plan_copy [((["m", "f"] : List String), Node.file "X")]
              ["m"] ["t"] [] ⟨false, ["f"]⟩).target ≠ none ∧
          r = OperationResult.alreadyExists)) :=
  C2_plan_execute_agreement.2.2
    [((["m", "f"] : List String), Node.file "X")] ["m"] ["t"] []
    (fun _ => []) ⟨[], [⟨false, ["f"]⟩], [], [], []⟩ []
    (plan_copy [((["m", "f"] : List String), Node.file "X")]
      ["m"] ["t"] [] ⟨false, ["f"]⟩)
    (by decide) (by decide) (by decide) (by decide) (by decide) (by decide)
    (by decide)
    (by
      intro h1 h2 n hn
      have hn' : some (Node.file "X") = some n := hn
      injection hn' with h
      exact ⟨"X", h.symm⟩)
    (by decide) (by decide)
